import Mathlib

/-!
# Event scheduler (`src/EventSchedular.cpp`)

A shallow embedding of `struct Event` and `class EventScheduler`, and a
verification of the scheduler's contract against it.

Modelling conventions.

* `std::priority_queue<Event>` is, as the C++ standard defines it, a
  `std::vector<Event>` kept as a binary heap under `std::less<Event>`, i.e.
  under `Event::operator<`: `push` is `push_back` followed by `std::push_heap`,
  `pop` is `std::pop_heap` followed by `pop_back`, `top` is `front`.  The heap
  algorithms are the ones of libstdc++ (`bits/stl_heap.h`): `__push_heap` and
  `__adjust_heap`.  The vector is a `List Event`.
* `std::unordered_map<string, Event>` is an association list with unique keys.
  Its iteration order is the list order; the standard leaves that order
  unspecified, so nothing below relies on it: the reachability relation
  contains a step that permutes it arbitrarily.
* `int` fields are `Int`; the only place where the width matters is `std::stoi`,
  which fails outside the 32-bit range.  `size_t` positions are `Nat` modulo
  `2 ^ 64`, with `npos = 2 ^ 64 - 1`.
* Loops are structural recursions on a fuel that is set, at each call site, to
  a bound the loop cannot exceed.
* Console output is a `Notice` per message, or the list of events
  `displayEvents` prints, each with the text `formatTime` gives for its time.
  `formatTime` has no defined result when `sprintf` writes past its buffer,
  and then the method that calls it has none either.
-/

namespace EventSchedular

/-- The `struct Event` of the source. -/
structure Event where
  name : String
  priority : Int
  time : Int
  description : String
deriving DecidableEq, Repr, Inhabited

/-- The comparison `Event::operator<`: `a.lt other` is `a < other`. -/
def Event.lt (a other : Event) : Bool :=
  if a.priority = other.priority then
    decide (a.time > other.time)
  else
    decide (a.priority > other.priority)

/-- The scheduling key order of the specification: priority ascending, then
time ascending. -/
def keyLt (a b : Event) : Prop :=
  a.priority < b.priority ∨ (a.priority = b.priority ∧ a.time < b.time)

instance (a b : Event) : Decidable (keyLt a b) := by
  unfold keyLt; infer_instance

/-! ## The binary heap of `std::priority_queue` -/

/-- The loop of `std::__push_heap(first, holeIndex, topIndex = 0, value)`:
while the hole is below the top and its parent compares less than `value`,
the parent moves down into the hole; at the end `value` fills the hole.  The
hole index strictly decreases, so `fuel = holeIndex` is never exhausted. -/
def pushHeapLoop : Nat → List Event → Nat → Event → List Event
  | 0, first, holeIndex, value => first.set holeIndex value
  | fuel + 1, first, holeIndex, value =>
    let parent := (holeIndex - 1) / 2
    if 0 < holeIndex ∧ (first.getD parent default).lt value = true then
      pushHeapLoop fuel (first.set holeIndex (first.getD parent default)) parent value
    else
      first.set holeIndex value

/-- The function `std::__push_heap` with `topIndex = 0`. -/
def pushHeap (first : List Event) (holeIndex : Nat) (value : Event) : List Event :=
  pushHeapLoop holeIndex first holeIndex value

/-- The first loop of `std::__adjust_heap`: the hole moves down to the child
that does not compare less than its sibling.  In the source `holeIndex` and
`secondChild` are equal at every loop test, so one index is carried.  The
result is the vector and the final hole.  The hole strictly increases and
stays below `len`, so `fuel = len` is never exhausted. -/
def adjustHeapLoop : Nat → List Event → Nat → Nat → List Event × Nat
  | 0, first, holeIndex, _ => (first, holeIndex)
  | fuel + 1, first, holeIndex, len =>
    if holeIndex < (len - 1) / 2 then
      let secondChild := 2 * (holeIndex + 1)
      let secondChild :=
        if (first.getD secondChild default).lt (first.getD (secondChild - 1) default) = true
        then secondChild - 1 else secondChild
      adjustHeapLoop fuel (first.set holeIndex (first.getD secondChild default)) secondChild len
    else
      (first, holeIndex)

/-- The function `std::__adjust_heap(first, holeIndex = 0, len, value)`: the
loop, then the case of a last node with a single child, then `__push_heap`
of `value` from the final hole.  It is called with `1 ≤ len` only. -/
def adjustHeap (first : List Event) (len : Nat) (value : Event) : List Event :=
  let r := adjustHeapLoop len first 0 len
  let r :=
    if len % 2 = 0 ∧ r.2 = (len - 2) / 2 then
      (r.1.set r.2 (r.1.getD (2 * (r.2 + 1) - 1) default), 2 * (r.2 + 1) - 1)
    else r
  pushHeap r.1 r.2 value

/-- The method `priority_queue::push`: `push_back`, then `std::push_heap`, which
takes the last element as `value` and calls `__push_heap` with the hole at the
last index. -/
def pqPush (c : List Event) (x : Event) : List Event :=
  pushHeap (c ++ [x]) c.length x

/-- The method `priority_queue::top`: the front of the vector (`none` on an
empty queue, where the source never calls it). -/
def pqTop (c : List Event) : Option Event := c.head?

/-- The method `priority_queue::pop`: `std::pop_heap`, then `pop_back`.
`pop_heap` does nothing on fewer than two elements; otherwise it saves the
last element as `value`, stores the front in the last slot and calls
`__adjust_heap` on the first `len - 1` slots. -/
def pqPop (c : List Event) : List Event :=
  if 1 < c.length then
    let last := c.length - 1
    let value := c.getD last default
    let c1 := c.set last (c.getD 0 default)
    (adjustHeap c1 last value).dropLast
  else
    c.dropLast

/-- The loop `while (!tempQueue.empty()) { current = tempQueue.top();
tempQueue.pop(); ... }` of `displayEvents` and `saveToFile`: the sequence of
values `current` takes.  Each `pop` shortens the vector by one, so
`fuel = length` is never exhausted. -/
def drainLoop : Nat → List Event → List Event
  | 0, _ => []
  | fuel + 1, tempQueue =>
    match pqTop tempQueue with
    | none => []
    | some current => current :: drainLoop fuel (pqPop tempQueue)

/-- The events of a queue in the order in which repeated `top`/`pop` yields
them. -/
def drain (q : List Event) : List Event := drainLoop q.length q

/-! ## Decimal text and time formatting -/

/-- The character of a decimal digit. -/
def digitChar (d : Nat) : Char := Char.ofNat (48 + d)

/-- The decimal digits of `n`, most significant first, in front of `acc`.  A
number has at most `n + 1` digits, so `fuel = n + 1` is never exhausted. -/
def natDigitsLoop : Nat → Nat → List Char → List Char
  | 0, _, acc => acc
  | fuel + 1, n, acc =>
    if n / 10 = 0 then digitChar (n % 10) :: acc
    else natDigitsLoop fuel (n / 10) (digitChar (n % 10) :: acc)

/-- The decimal digits of a natural number. -/
def natDigits (n : Nat) : List Char := natDigitsLoop (n + 1) n []

/-- The text `outFile << i` writes for an `int`: decimal, with a leading `-`
when negative. -/
def decimal (i : Int) : List Char :=
  if i < 0 then '-' :: natDigits i.natAbs else natDigits i.natAbs

/-- The text `sprintf` writes for one `%02d`: the decimal text of the number,
with a `0` in front when it is a single digit. -/
def fmt02d (i : Int) : List Char :=
  if (decimal i).length < 2 then '0' :: decimal i else decimal i

/-- The method `EventScheduler::formatTime`.  The text of
`sprintf(formattedTime, "%02d:%02d", hours, minutes)` goes, with its
terminator, into `char formattedTime[6]`; when it does not fit, `sprintf`
writes past the buffer, which is undefined behaviour: the result is `none`. -/
def formatTime (time : Int) : Option String :=
  let hours := Int.tdiv time 100
  let minutes := Int.tmod time 100
  let period := if hours ≥ 12 then "PM" else "AM"
  let hours := if hours > 12 then hours - 12 else hours
  let hours := if hours = 0 then 12 else hours
  let formattedTime := fmt02d hours ++ ':' :: fmt02d minutes
  if 6 < formattedTime.length + 1 then none
  else some (String.mk formattedTime ++ " " ++ period)

/-- The text `sprintf` produces in `formatTime`, without the terminator,
whether or not it fits the buffer. -/
def formatTimeText (time : Int) : List Char :=
  let hours := Int.tdiv time 100
  let minutes := Int.tmod time 100
  let hours := if hours > 12 then hours - 12 else hours
  let hours := if hours = 0 then 12 else hours
  fmt02d hours ++ ':' :: fmt02d minutes

/-! ## The scheduler -/

/-- The `class EventScheduler`: the heap vector of `eventQueue` and the
entries of `eventMap` in iteration order. -/
structure EventScheduler where
  eventQueue : List Event
  eventMap : List (String × Event)
deriving DecidableEq, Repr

/-- The messages the operations print, one constructor per `cout` statement. -/
inductive Notice where
  | alreadyExists
  | added (name : String)
  | noEventsToProcess
  | processing (nextEvent : Event) (time : String)
  | notFound
  | removed (name : String)
deriving DecidableEq, Repr

/-- The test `eventMap.find(name) != eventMap.end()`. -/
def mapContains (m : List (String × Event)) (name : String) : Bool :=
  m.any (fun kv => kv.1 == name)

/-- The call `eventMap.find(name)`, as the mapped value. -/
def mapFind (m : List (String × Event)) (name : String) : Option Event :=
  (m.find? (fun kv => kv.1 == name)).map Prod.snd

/-- The assignment `eventMap[name] = e`: overwrites the entry of an existing
key, inserts a new entry otherwise. -/
def mapAssign (m : List (String × Event)) (name : String) (e : Event) :
    List (String × Event) :=
  if mapContains m name then
    m.map (fun kv => if kv.1 == name then (name, e) else kv)
  else
    (name, e) :: m

/-- The call `eventMap.erase(name)`; the remaining entries keep their order. -/
def mapErase (m : List (String × Event)) (name : String) : List (String × Event) :=
  m.filter (fun kv => !(kv.1 == name))

/-- The empty scheduler: a default-constructed `EventScheduler`. -/
def EventScheduler.empty : EventScheduler := ⟨[], []⟩

/-- The method `EventScheduler::addEvent`. -/
def EventScheduler.addEvent (s : EventScheduler) (name : String) (priority time : Int)
    (description : String) : EventScheduler × Notice :=
  if mapContains s.eventMap name then
    (s, Notice.alreadyExists)
  else
    let newEvent : Event := ⟨name, priority, time, description⟩
    (⟨pqPush s.eventQueue newEvent, mapAssign s.eventMap name newEvent⟩, Notice.added name)

/-- The enumeration in priority order, the `peekOrdered` of the
specification: the values `current` takes in the loop over a copy of
`eventQueue` that `displayEvents` and `saveToFile` share. -/
def EventScheduler.peekOrdered (s : EventScheduler) : List Event := drain s.eventQueue

/-- The print loop of `displayEvents`: each `current` is printed with the
text `formatTime(current.time)`.  When `formatTime` has no defined result (it
writes past its buffer) neither has the loop: the result is `none`.  Each
`pop` shortens the vector by one, so `fuel = length` is never exhausted. -/
def displayLoop : Nat → List Event → Option (List (Event × String))
  | 0, _ => some []
  | fuel + 1, tempQueue =>
    match pqTop tempQueue with
    | none => some []
    | some current =>
      match formatTime current.time with
      | none => none
      | some time =>
        match displayLoop fuel (pqPop tempQueue) with
        | none => none
        | some out => some ((current, time) :: out)

/-- The method `EventScheduler::displayEvents`: the events it prints, each
with the text of its time, in the order it prints them (the empty list when
it prints "No events scheduled."); `none` when a call of `formatTime` has no
defined result. -/
def EventScheduler.displayEvents (s : EventScheduler) : Option (List (Event × String)) :=
  if s.eventQueue.isEmpty then some [] else displayLoop s.eventQueue.length s.eventQueue

/-- The statements of `processNextEvent` before its message: the `empty()`
guard, `top`, `pop` and `erase`.  The scheduler they leave, and the event
taken (`none` on an empty queue). -/
def EventScheduler.takeNext (s : EventScheduler) : EventScheduler × Option Event :=
  match pqTop s.eventQueue with
  | none => (s, none)
  | some nextEvent =>
    (⟨pqPop s.eventQueue, mapErase s.eventMap nextEvent.name⟩, some nextEvent)

/-- The method `EventScheduler::processNextEvent`: after `top`, `pop` and
`erase` it prints the event with the text `formatTime(nextEvent.time)`.  When
`formatTime` has no defined result (it writes past its buffer) neither has
the method: the result is `none`. -/
def EventScheduler.processNextEvent (s : EventScheduler) : Option (EventScheduler × Notice) :=
  match s.takeNext with
  | (s', none) => some (s', Notice.noEventsToProcess)
  | (s', some nextEvent) =>
    match formatTime nextEvent.time with
    | none => none
    | some time => some (s', Notice.processing nextEvent time)

/-- The method `EventScheduler::rebuildQueue`: an empty queue, then one `push`
per map entry in iteration order. -/
def EventScheduler.rebuildQueue (s : EventScheduler) : EventScheduler :=
  ⟨s.eventMap.foldl (fun q kv => pqPush q kv.2) [], s.eventMap⟩

/-- The method `EventScheduler::removeEvent`. -/
def EventScheduler.removeEvent (s : EventScheduler) (name : String) :
    EventScheduler × Notice :=
  if !mapContains s.eventMap name then
    (s, Notice.notFound)
  else
    ((EventScheduler.rebuildQueue ⟨s.eventQueue, mapErase s.eventMap name⟩), Notice.removed name)

/-! ## Persistence -/

/-- The exceptions the standard library throws in `loadFromFile`. -/
inductive Exn where
  | invalid_argument
  | out_of_range
deriving DecidableEq, Repr

/-- The value `std::string::npos`, the largest `size_t`. -/
def npos : Nat := 2 ^ 64 - 1

/-- Addition of two `size_t` values. -/
def sizeAdd (a b : Nat) : Nat := (a + b) % 2 ^ 64

/-- Subtraction of two `size_t` values (both below `2 ^ 64`). -/
def sizeSub (a b : Nat) : Nat := (a + (2 ^ 64 - b)) % 2 ^ 64

/-- The call `line.find(ch, pos)`: the index of the first `ch` at or after
`pos`, or `npos`. -/
def strFind (line : List Char) (ch : Char) (pos : Nat) : Nat :=
  let i := (line.drop pos).indexOf ch
  if i < (line.drop pos).length then pos + i else npos

/-- The call `line.substr(pos, n)`: throws when `pos` exceeds the size,
otherwise at most `n` characters from `pos`. -/
def substr (line : List Char) (pos n : Nat) : Except Exn (List Char) :=
  if line.length < pos then Except.error Exn.out_of_range
  else Except.ok ((line.drop pos).take n)

/-- The predicate `isspace` of the "C" locale, used by `strtol`. -/
def isSpace (c : Char) : Bool :=
  c = ' ' || c = '\t' || c = '\n' || c = Char.ofNat 11 || c = Char.ofNat 12 || c = '\r'

/-- The predicate `isdigit`. -/
def isDigit (c : Char) : Bool := decide (48 ≤ c.toNat ∧ c.toNat ≤ 57)

/-- The value of a run of decimal digits, continuing from `acc`. -/
def digitsValue (acc : Nat) : List Char → Nat
  | [] => acc
  | c :: cs => digitsValue (10 * acc + (c.toNat - 48)) cs

/-- The range of `int`. -/
def isInt (i : Int) : Prop := -2 ^ 31 ≤ i ∧ i ≤ 2 ^ 31 - 1

instance (i : Int) : Decidable (isInt i) := by
  unfold isInt; infer_instance

/-- The optional sign `strtol` reads: whether it is `-`, and the rest. -/
def stoiSign (s : List Char) : Bool × List Char :=
  match s with
  | '-' :: t => (true, t)
  | '+' :: t => (false, t)
  | _ => (false, s)

/-- The call `std::stoi(str)`, which is `strtol` in base 10 followed by a
range check: leading white space is skipped, an optional sign is read, then
the longest run of digits; what follows the digits is ignored.  Without a
digit it throws `invalid_argument`, outside the range of `int` it throws
`out_of_range`. -/
def stoi (str : List Char) : Except Exn Int :=
  let signed := stoiSign (str.dropWhile isSpace)
  let ds := signed.2.takeWhile isDigit
  if ds = [] then Except.error Exn.invalid_argument
  else
    let v : Int := if signed.1 then -(digitsValue 0 ds : Int) else (digitsValue 0 ds : Int)
    if isInt v then Except.ok v else Except.error Exn.out_of_range

/-- The text of one record without its newline:
`name | priority | time | description`. -/
def recordLine (e : Event) : List Char :=
  e.name.data ++ '|' :: (decimal e.priority ++ '|' :: (decimal e.time ++ '|' :: e.description.data))

/-- The text one iteration of the loop of `saveToFile` writes. -/
def record (e : Event) : List Char := recordLine e ++ ['\n']

/-- The method `EventScheduler::saveToFile`, given whether the file could be
opened: the scheduler afterwards and the text written (`none` when the file
could not be opened). -/
def EventScheduler.saveToFile (s : EventScheduler) (opened : Bool) :
    EventScheduler × Option (List Char) :=
  if !opened then (s, none)
  else (s, some ((drain s.eventQueue).flatMap record))

/-- The lines `while (getline(inFile, line))` yields: the text is cut at each
newline, and a last line without a newline counts when it is not empty. -/
def getlines : List Char → List (List Char)
  | [] => []
  | c :: rest =>
    if c = '\n' then [] :: getlines rest
    else
      match getlines rest with
      | [] => [[c]]
      | l :: ls => (c :: l) :: ls

/-- The body of the loop of `loadFromFile` up to the call of `addEvent`: the
three `find` calls and the four fields, in the order the source computes
them. -/
def parseLine (line : List Char) : Except Exn Event :=
  let pos1 := strFind line '|' 0
  let pos2 := strFind line '|' (sizeAdd pos1 1)
  let pos3 := strFind line '|' (sizeAdd pos2 1)
  match substr line 0 pos1 with
  | Except.error x => Except.error x
  | Except.ok name =>
    match substr line (sizeAdd pos1 1) (sizeSub (sizeSub pos2 pos1) 1) with
    | Except.error x => Except.error x
    | Except.ok f2 =>
      match stoi f2 with
      | Except.error x => Except.error x
      | Except.ok priority =>
        match substr line (sizeAdd pos2 1) (sizeSub (sizeSub pos3 pos2) 1) with
        | Except.error x => Except.error x
        | Except.ok f3 =>
          match stoi f3 with
          | Except.error x => Except.error x
          | Except.ok time =>
            match substr line (sizeAdd pos3 1) npos with
            | Except.error x => Except.error x
            | Except.ok description =>
              Except.ok ⟨String.mk name, priority, time, String.mk description⟩

/-- The outcome of `loadFromFile`: the file could not be opened, the load ran
to its end, or an exception left the method; each with the scheduler at that
point. -/
inductive LoadResult where
  | openFailed (s : EventScheduler)
  | loaded (s : EventScheduler)
  | thrown (x : Exn) (s : EventScheduler)
deriving DecidableEq, Repr

/-- The scheduler a load leaves behind. -/
def LoadResult.state : LoadResult → EventScheduler
  | LoadResult.openFailed s => s
  | LoadResult.loaded s => s
  | LoadResult.thrown _ s => s

/-- The loop of `loadFromFile` over the lines of the file. -/
def loadLoop : List (List Char) → EventScheduler → LoadResult
  | [], s => LoadResult.loaded s
  | line :: rest, s =>
    match parseLine line with
    | Except.error x => LoadResult.thrown x s
    | Except.ok e => loadLoop rest (s.addEvent e.name e.priority e.time e.description).1

/-- The method `EventScheduler::loadFromFile`, given the text of the file
(`none` when it cannot be opened). -/
def EventScheduler.loadFromFile (s : EventScheduler) (file : Option (List Char)) : LoadResult :=
  match file with
  | none => LoadResult.openFailed s
  | some text => loadLoop (getlines text) ⟨[], []⟩

/-! ## Reachable states and invariants -/

/-- The states of a scheduler that starts empty and goes through calls of
its public methods.  `addEvent` receives `int` arguments.  A load counts
whether it ends or throws, and `processNextEvent` counts with the scheduler
it has built when it prints, whether or not the message can be formatted.
The step `rehash` lets the iteration order of the map be any order, as the
standard leaves it unspecified. -/
inductive Reachable : EventScheduler → Prop where
  | empty : Reachable EventScheduler.empty
  | addEvent {s : EventScheduler} (name : String) (priority time : Int) (description : String) :
      isInt priority → isInt time → Reachable s →
      Reachable (s.addEvent name priority time description).1
  | processNextEvent {s : EventScheduler} : Reachable s → Reachable s.takeNext.1
  | removeEvent {s : EventScheduler} (name : String) : Reachable s →
      Reachable (s.removeEvent name).1
  | loadFromFile {s : EventScheduler} (file : Option (List Char)) : Reachable s →
      Reachable (s.loadFromFile file).state
  | rehash {s : EventScheduler} (m : List (String × Event)) : Reachable s →
      s.eventMap.Perm m → Reachable ⟨s.eventQueue, m⟩

/-- The scheduling key of an event, in the lexicographic order. -/
def key (e : Event) : ℤ ×ₗ ℤ := toLex (e.priority, e.time)

/-- The vector is a heap for `Event::operator<`: no parent compares less than
its child, i.e. the key of a parent is at most the key of its child. -/
def IsHeap (v : List Event) : Prop :=
  ∀ i, 0 < i → i < v.length → key (v.getD ((i - 1) / 2) default) ≤ key (v.getD i default)

/-- The vector is a heap once the slot `hole` is ignored: every parent and
child pair that avoids the hole is ordered, and the parent of the hole is
ordered with the children of the hole. -/
def HeapExcept (v : List Event) (hole : Nat) : Prop :=
  (∀ i, 0 < i → i < v.length → i ≠ hole → (i - 1) / 2 ≠ hole →
      key (v.getD ((i - 1) / 2) default) ≤ key (v.getD i default)) ∧
  (∀ i, 0 < i → i < v.length → (i - 1) / 2 = hole → 0 < hole →
      key (v.getD ((hole - 1) / 2) default) ≤ key (v.getD i default))

/-- The invariant of the scheduler: the queue is a heap, it holds the mapped
events, the keys of the map are distinct, each entry is filed under the name
of its event, and the numeric fields are `int` values. -/
structure Inv (s : EventScheduler) : Prop where
  heap : IsHeap s.eventQueue
  sync : s.eventQueue.Perm (s.eventMap.map Prod.snd)
  keys : (s.eventMap.map Prod.fst).Nodup
  names : ∀ kv ∈ s.eventMap, kv.2.name = kv.1
  ints : ∀ kv ∈ s.eventMap, isInt kv.2.priority ∧ isInt kv.2.time

/-- The states that follow `s` through calls that do not add the name `n`
again: `addEvent` of other names, `processNextEvent` (with the scheduler it
has built when it prints), `removeEvent`, and `rehash`.  (`displayEvents` and
`saveToFile` leave the state as it is.) -/
inductive Later (n : String) (s : EventScheduler) : EventScheduler → Prop where
  | refl : Later n s s
  | addEvent {s' : EventScheduler} (name : String) (priority time : Int) (description : String) :
      name ≠ n → isInt priority → isInt time → Later n s s' →
      Later n s (s'.addEvent name priority time description).1
  | processNextEvent {s' : EventScheduler} : Later n s s' → Later n s s'.takeNext.1
  | removeEvent {s' : EventScheduler} (name : String) : Later n s s' →
      Later n s (s'.removeEvent name).1
  | rehash {s' : EventScheduler} (m : List (String × Event)) : Later n s s' →
      s'.eventMap.Perm m → Later n s ⟨s'.eventQueue, m⟩

/-! ## Concrete schedulers -/

/-- The scheduler of scenario 1 of the specification: `standup`, `lunch` and
`review` added in this order. -/
def scenario : EventScheduler :=
  (((EventScheduler.empty.addEvent "standup" 1 900 "daily sync").1.addEvent
    "lunch" 5 1200 "").1.addEvent "review" 1 830 "code review").1

/-- Four events with the same priority and time, added in the order `A`, `B`,
`C`, `D`. -/
def tied : EventScheduler :=
  ((((EventScheduler.empty.addEvent "A" 1 900 "").1.addEvent "B" 1 900 "").1.addEvent
    "C" 1 900 "").1.addEvent "D" 1 900 "").1

/-- Two events, the first in priority order with the time `11200`, which
`formatTime` cannot format. -/
def overlong : EventScheduler :=
  ((EventScheduler.empty.addEvent "x" 1 11200 "").1.addEvent "y" 2 900 "").1

/-- One event whose name holds a newline. -/
def multiline : EventScheduler :=
  (EventScheduler.empty.addEvent "a\nb" 1 900 "").1

/-! ## Calls on a scheduler -/

/-- The two menu entries of `main` that take no input: `2` calls
`displayEvents`, `3` calls `processNextEvent`. -/
inductive Call where
  | displayEvents
  | processNextEvent
deriving DecidableEq, Repr

/-- What a call shows: the events `displayEvents` lists, or the message of
`processNextEvent`. -/
inductive Shown where
  | events (l : List (Event × String))
  | notice (n : Notice)
deriving DecidableEq, Repr

/-- One call: the scheduler afterwards and what was shown; `none` when the
call has no defined result.  `displayEvents` works on a copy of the queue and
leaves the scheduler as it is. -/
def EventScheduler.call (s : EventScheduler) : Call → Option (EventScheduler × Shown)
  | Call.displayEvents =>
    match s.displayEvents with
    | none => none
    | some out => some (s, Shown.events out)
  | Call.processNextEvent =>
    match s.processNextEvent with
    | none => none
    | some r => some (r.1, Shown.notice r.2)

/-- A sequence of calls, in order: the scheduler at the end and everything
shown. -/
def EventScheduler.calls : EventScheduler → List Call → Option (EventScheduler × List Shown)
  | s, [] => some (s, [])
  | s, c :: cs =>
    match s.call c with
    | none => none
    | some r =>
      match EventScheduler.calls r.1 cs with
      | none => none
      | some rs => some (rs.1, r.2 :: rs.2)

/-! ## The events of a file -/

/-- The events of the lines that `parseLine` accepts, in the order of the
lines. -/
def parsedEvents (lines : List (List Char)) : List Event :=
  lines.filterMap (fun l =>
    match parseLine l with
    | Except.ok e => some e
    | Except.error _ => none)

theorem getD_set_self {α : Type} (l : List α) (i : Nat) (x d : α) (h : i < l.length) :
    (l.set i x).getD i d = x := by
  simp [List.getD_eq_getElem?_getD, List.getElem?_set, h]

theorem getD_set_of_ne {α : Type} (l : List α) (i j : Nat) (x d : α) (h : i ≠ j) :
    (l.set i x).getD j d = l.getD j d := by
  simp [List.getD_eq_getElem?_getD, List.getElem?_set, h]

theorem getD_take_of_lt {α : Type} (l : List α) (i n : Nat) (d : α) (h : i < n) :
    (l.take n).getD i d = l.getD i d := by
  simp [List.getD_eq_getElem?_getD, List.getElem?_take, h]

theorem set_perm_cons_eraseIdx {α : Type} (l : List α) (i : Nat) (x : α) (h : i < l.length) :
    (l.set i x).Perm (x :: l.eraseIdx i) := by
  induction l generalizing i with
  | nil => simp at h
  | cons a t ih =>
    cases i with
    | zero => simp
    | succ j =>
      simp only [List.set_cons_succ, List.eraseIdx_cons_succ]
      have hj : j < t.length := by simpa using h
      exact ((ih j hj).cons a).trans (List.Perm.swap x a _)

theorem perm_getD_cons_eraseIdx {α : Type} (l : List α) (i : Nat) (d : α) (h : i < l.length) :
    l.Perm (l.getD i d :: l.eraseIdx i) := by
  induction l generalizing i with
  | nil => simp at h
  | cons a t ih =>
    cases i with
    | zero => simp
    | succ j =>
      have hj : j < t.length := by simpa using h
      have := ih j hj
      simp only [List.getD_cons_succ, List.eraseIdx_cons_succ]
      exact (this.cons a).trans (List.Perm.swap _ a _)

/-- Moving the element at `j` into slot `i` and then filling slot `j` with `x`
holds the same elements as filling slot `i` with `x`. -/
theorem set_set_perm {α : Type} (l : List α) (i j : Nat) (x d : α) (hi : i < l.length)
    (hj : j < l.length) (hij : i ≠ j) :
    ((l.set i (l.getD j d)).set j x).Perm (l.set i x) := by
  have hj' : j < (l.set i (l.getD j d)).length := by simpa using hj
  have h1 := set_perm_cons_eraseIdx (l.set i (l.getD j d)) j x hj'
  have h2 := set_perm_cons_eraseIdx l i x hi
  have h3 := perm_getD_cons_eraseIdx (l.set i (l.getD j d)) j d hj'
  rw [getD_set_of_ne l i j _ d hij] at h3
  have h4 := set_perm_cons_eraseIdx l i (l.getD j d) hi
  have h5 : ((l.set i (l.getD j d)).eraseIdx j).Perm (l.eraseIdx i) :=
    (List.perm_cons _).1 (h3.symm.trans h4)
  exact h1.trans ((h5.cons x).trans h2.symm)

/-! ## The scheduling key -/

theorem keyLt_iff (a b : Event) : keyLt a b ↔ key a < key b := by
  unfold keyLt key
  rw [Prod.Lex.lt_iff]

theorem lt_iff_key (a b : Event) : a.lt b = true ↔ key b < key a := by
  rw [← keyLt_iff]
  unfold Event.lt keyLt
  by_cases h : a.priority = b.priority
  · simp [h]
  · simp only [h, if_false, decide_eq_true_eq, gt_iff_lt]
    constructor
    · intro h1; exact Or.inl h1
    · rintro (h1 | ⟨h1, _⟩)
      · exact h1
      · exact absurd h1.symm h

theorem lt_eq_false_iff (a b : Event) : ¬ (a.lt b = true) ↔ key a ≤ key b := by
  rw [lt_iff_key, not_lt]

/-! ## The heap invariant -/

theorem IsHeap.heapExcept {v : List Event} (h : IsHeap v) (hole : Nat) : HeapExcept v hole := by
  refine ⟨fun i h0 hi _ _ => h i h0 hi, fun i h0 hi hp hh => ?_⟩
  have h1 := h i h0 hi
  have h2 := h hole hh (by omega)
  rw [hp] at h1
  exact le_trans h2 h1

theorem pushHeapLoop_length (fuel : Nat) (v : List Event) (hole : Nat) (value : Event) :
    (pushHeapLoop fuel v hole value).length = v.length := by
  induction fuel generalizing v hole with
  | zero => simp [pushHeapLoop]
  | succ n ih =>
    simp only [pushHeapLoop]
    split
    · rw [ih]; simp
    · simp

theorem pushHeapLoop_perm (fuel : Nat) (v : List Event) (hole : Nat) (value : Event)
    (hh : hole < v.length) : (pushHeapLoop fuel v hole value).Perm (v.set hole value) := by
  induction fuel generalizing v hole with
  | zero => simp [pushHeapLoop]
  | succ n ih =>
    simp only [pushHeapLoop]
    split
    · rename_i hc
      have hp : (hole - 1) / 2 < hole := by omega
      have h1 := ih (v.set hole (v.getD ((hole - 1) / 2) default)) ((hole - 1) / 2)
        (by simp; omega)
      exact h1.trans (set_set_perm v hole ((hole - 1) / 2) value default hh (by omega) (by omega))
    · exact List.Perm.refl _

/-- Filling the hole with `value` gives a heap when the loop of `__push_heap`
stops. -/
theorem set_isHeap (v : List Event) (hole : Nat) (value : Event)
    (hh : hole < v.length) (hex : HeapExcept v hole)
    (hch : ∀ i, 0 < i → i < v.length → (i - 1) / 2 = hole →
      key value ≤ key (v.getD i default))
    (hstop : hole = 0 ∨ key (v.getD ((hole - 1) / 2) default) ≤ key value) :
    IsHeap (v.set hole value) := by
  intro i h0 hi
  simp only [List.length_set] at hi
  by_cases hih : i = hole
  · subst hih
    rw [getD_set_self _ _ _ _ hh, getD_set_of_ne _ _ _ _ _ (by omega)]
    rcases hstop with h | h
    · omega
    · exact h
  · rw [getD_set_of_ne _ _ _ _ _ (Ne.symm hih)]
    by_cases hph : (i - 1) / 2 = hole
    · rw [hph, getD_set_self _ _ _ _ hh]
      exact hch i h0 hi hph
    · rw [getD_set_of_ne _ _ _ _ _ (Ne.symm hph)]
      exact hex.1 i h0 hi hih hph

theorem pushHeapLoop_isHeap (fuel : Nat) (v : List Event) (hole : Nat) (value : Event)
    (hf : hole ≤ fuel) (hh : hole < v.length) (hex : HeapExcept v hole)
    (hch : ∀ i, 0 < i → i < v.length → (i - 1) / 2 = hole →
      key value ≤ key (v.getD i default)) :
    IsHeap (pushHeapLoop fuel v hole value) := by
  induction fuel generalizing v hole with
  | zero =>
    simp only [pushHeapLoop]
    exact set_isHeap v hole value hh hex hch (Or.inl (by omega))
  | succ n ih =>
    simp only [pushHeapLoop]
    split
    · rename_i hc
      obtain ⟨hpos, hlt⟩ := hc
      rw [lt_iff_key] at hlt
      have hp : (hole - 1) / 2 < hole := by omega
      apply ih
      · omega
      · simp; omega
      · refine ⟨fun i h0 hi hne hpne => ?_, fun i h0 hi hpi hpp => ?_⟩
        · simp only [List.length_set] at hi
          by_cases hih : i = hole
          · subst hih; exact absurd rfl hpne
          · rw [getD_set_of_ne _ _ _ _ _ (Ne.symm hih)]
            by_cases hph : (i - 1) / 2 = hole
            · rw [hph, getD_set_self _ _ _ _ hh]
              exact hex.2 i h0 hi hph hpos
            · rw [getD_set_of_ne _ _ _ _ _ (Ne.symm hph)]
              exact hex.1 i h0 hi hih hph
        · simp only [List.length_set] at hi
          have hpp' : (((hole - 1) / 2 - 1) / 2) ≠ hole := by omega
          rw [getD_set_of_ne _ _ _ _ _ (Ne.symm hpp')]
          have hgp := hex.1 ((hole - 1) / 2) hpp (by omega) (by omega) hpp'
          by_cases hih : i = hole
          · subst hih
            rw [getD_set_self _ _ _ _ hh]
            exact hgp
          · rw [getD_set_of_ne _ _ _ _ _ (Ne.symm hih)]
            have h5 := hex.1 i h0 hi hih (by omega)
            rw [hpi] at h5
            exact le_trans hgp h5
      · intro i h0 hi hpi
        simp only [List.length_set] at hi
        by_cases hih : i = hole
        · subst hih
          rw [getD_set_self _ _ _ _ hh]
          exact le_of_lt hlt
        · rw [getD_set_of_ne _ _ _ _ _ (Ne.symm hih)]
          have := hex.1 i h0 hi hih (by omega)
          rw [hpi] at this
          exact le_trans (le_of_lt hlt) this
    · rename_i hc
      apply set_isHeap v hole value hh hex hch
      by_cases h0 : hole = 0
      · exact Or.inl h0
      · right
        rw [← lt_eq_false_iff]
        intro hlt
        exact hc ⟨by omega, hlt⟩

/-- One downward move of the hole: the element of the child `c` with the
least key among the children of `h` moves into the hole `h`. -/
theorem heapExcept_step_down (v : List Event) (h c : Nat) (hc : (c - 1) / 2 = h) (hc0 : 0 < c)
    (hcl : c < v.length)
    (hmin : ∀ i, 0 < i → i < v.length → (i - 1) / 2 = h →
      key (v.getD c default) ≤ key (v.getD i default))
    (hex : HeapExcept v h) : HeapExcept (v.set h (v.getD c default)) c := by
  have hhl : h < v.length := by omega
  refine ⟨fun i h0 hi hne hpne => ?_, fun i h0 hi hpi _ => ?_⟩
  · simp only [List.length_set] at hi
    by_cases hih : i = h
    · subst hih
      rw [getD_set_self _ _ _ _ hhl, getD_set_of_ne _ _ _ _ _ (by omega)]
      exact hex.2 c hc0 hcl hc h0
    · rw [getD_set_of_ne _ _ _ _ _ (Ne.symm hih)]
      by_cases hph : (i - 1) / 2 = h
      · rw [hph, getD_set_self _ _ _ _ hhl]
        exact hmin i h0 hi hph
      · rw [getD_set_of_ne _ _ _ _ _ (Ne.symm hph)]
        exact hex.1 i h0 hi hih hph
  · simp only [List.length_set] at hi
    rw [hc, getD_set_self _ _ _ _ hhl, getD_set_of_ne _ _ _ _ _ (by omega)]
    have := hex.1 i h0 hi (by omega) (by omega)
    rw [hpi] at this
    exact this

theorem adjustHeapLoop_spec (fuel : Nat) (v : List Event) (hole len : Nat)
    (hlen : v.length = len) (hh : hole < len) :
    (adjustHeapLoop fuel v hole len).1.length = len ∧
    (adjustHeapLoop fuel v hole len).2 < len ∧
    (∀ x, ((adjustHeapLoop fuel v hole len).1.set (adjustHeapLoop fuel v hole len).2 x).Perm
      (v.set hole x)) ∧
    (HeapExcept v hole →
      HeapExcept (adjustHeapLoop fuel v hole len).1 (adjustHeapLoop fuel v hole len).2) ∧
    (len ≤ fuel + hole → ¬ (adjustHeapLoop fuel v hole len).2 < (len - 1) / 2) := by
  induction fuel generalizing v hole with
  | zero =>
    simp only [adjustHeapLoop]
    exact ⟨hlen, hh, fun x => List.Perm.refl _, fun h => h, fun h => by omega⟩
  | succ n ih =>
    simp only [adjustHeapLoop]
    split
    · rename_i hc
      -- the chosen child
      have key_step : ∀ c, (c = 2 * (hole + 1) ∨ c = 2 * (hole + 1) - 1) →
          (∀ i, 0 < i → i < v.length → (i - 1) / 2 = hole →
            key (v.getD c default) ≤ key (v.getD i default)) →
          (adjustHeapLoop n (v.set hole (v.getD c default)) c len).1.length = len ∧
          (adjustHeapLoop n (v.set hole (v.getD c default)) c len).2 < len ∧
          (∀ x, ((adjustHeapLoop n (v.set hole (v.getD c default)) c len).1.set
            (adjustHeapLoop n (v.set hole (v.getD c default)) c len).2 x).Perm (v.set hole x)) ∧
          (HeapExcept v hole →
            HeapExcept (adjustHeapLoop n (v.set hole (v.getD c default)) c len).1
              (adjustHeapLoop n (v.set hole (v.getD c default)) c len).2) ∧
          (len ≤ n + 1 + hole →
            ¬ (adjustHeapLoop n (v.set hole (v.getD c default)) c len).2 < (len - 1) / 2) := by
        intro c hcc hmin
        have hcl : c < len := by omega
        have hcp : (c - 1) / 2 = hole := by omega
        obtain ⟨h1, h2, h3, h4, h5⟩ := ih (v.set hole (v.getD c default)) c
          (by simpa using hlen) hcl
        refine ⟨h1, h2, fun x => ?_, fun hex => ?_, fun hf => h5 (by omega)⟩
        · exact (h3 x).trans
            (set_set_perm v hole c x default (by omega) (by omega) (by omega))
        · exact h4 (heapExcept_step_down v hole c hcp (by omega) (by omega) hmin hex)
      split
      · rename_i hlt
        rw [lt_iff_key] at hlt
        apply key_step _ (Or.inr rfl)
        intro i h0 hi hpi
        have : i = 2 * (hole + 1) - 1 ∨ i = 2 * (hole + 1) := by omega
        rcases this with h | h
        · rw [h]
        · rw [h]; exact le_of_lt hlt
      · rename_i hlt
        rw [lt_eq_false_iff] at hlt
        apply key_step _ (Or.inl rfl)
        intro i h0 hi hpi
        have : i = 2 * (hole + 1) - 1 ∨ i = 2 * (hole + 1) := by omega
        rcases this with h | h
        · rw [h]; exact hlt
        · rw [h]
    · rename_i hc
      exact ⟨hlen, hh, fun x => List.Perm.refl _, fun h => h, fun _ => hc⟩

theorem pushHeap_length (v : List Event) (hole : Nat) (value : Event) :
    (pushHeap v hole value).length = v.length :=
  pushHeapLoop_length _ _ _ _

theorem adjustHeapLoop_length (fuel : Nat) (v : List Event) (hole len : Nat) :
    (adjustHeapLoop fuel v hole len).1.length = v.length := by
  induction fuel generalizing v hole with
  | zero => simp [adjustHeapLoop]
  | succ n ih =>
    simp only [adjustHeapLoop]
    split
    · split <;> rw [ih] <;> simp
    · rfl

theorem adjustHeap_length (v : List Event) (len : Nat) (value : Event) :
    (adjustHeap v len value).length = v.length := by
  unfold adjustHeap
  rw [pushHeap_length]
  split
  · simp [adjustHeapLoop_length]
  · exact adjustHeapLoop_length _ _ _ _

theorem adjustHeap_spec (v : List Event) (len : Nat) (value : Event)
    (hlen : v.length = len) (h1 : 1 ≤ len) :
    (adjustHeap v len value).length = len ∧
    (adjustHeap v len value).Perm (v.set 0 value) ∧
    (HeapExcept v 0 → IsHeap (adjustHeap v len value)) := by
  obtain ⟨a1, a2, a3, a4, a5⟩ := adjustHeapLoop_spec len v 0 len hlen (by omega)
  have a5' := a5 (by omega)
  simp only [adjustHeap]
  split
  · rename_i hc
    obtain ⟨hev, heq⟩ := hc
    have hcl : 2 * ((adjustHeapLoop len v 0 len).2 + 1) - 1 < len := by omega
    simp only []
    refine ⟨?_, ?_, fun hex => ?_⟩
    · rw [pushHeap_length]; simpa using a1
    · refine (pushHeapLoop_perm _ _ _ _ (by simp; omega)).trans ?_
      exact (set_set_perm _ _ _ value default (by omega) (by omega) (by omega)).trans (a3 value)
    · apply pushHeapLoop_isHeap _ _ _ _ (le_refl _) (by simp; omega)
      · apply heapExcept_step_down _ _ _ (by omega) (by omega) (by omega) _ (a4 hex)
        intro i h0 hi hpi
        have : i = 2 * ((adjustHeapLoop len v 0 len).2 + 1) - 1 := by omega
        rw [this]
      · intro i h0 hi hpi
        simp only [List.length_set] at hi
        omega
  · rename_i hc
    refine ⟨?_, ?_, fun hex => ?_⟩
    · rw [pushHeap_length]; exact a1
    · exact (pushHeapLoop_perm _ _ _ _ (by omega)).trans (a3 value)
    · apply pushHeapLoop_isHeap _ _ _ _ (le_refl _) (by omega) (a4 hex)
      intro i h0 hi hpi
      exfalso
      apply hc
      omega

/-! ## The heap algorithms only touch the first `len` slots -/

theorem take_pushHeapLoop (fuel : Nat) (v : List Event) (hole n : Nat) (value : Event)
    (hn : hole < n) :
    (pushHeapLoop fuel v hole value).take n = pushHeapLoop fuel (v.take n) hole value := by
  induction fuel generalizing v hole with
  | zero => simp [pushHeapLoop, List.set_take]
  | succ k ih =>
    simp only [pushHeapLoop]
    rw [getD_take_of_lt v _ n default (by omega)]
    split
    · rw [ih _ _ (by omega), List.set_take]
    · rw [List.set_take]

theorem take_adjustHeapLoop (fuel : Nat) (v : List Event) (hole len n : Nat) (hn : len ≤ n) :
    ((adjustHeapLoop fuel v hole len).1.take n, (adjustHeapLoop fuel v hole len).2) =
      adjustHeapLoop fuel (v.take n) hole len := by
  induction fuel generalizing v hole with
  | zero => simp [adjustHeapLoop]
  | succ k ih =>
    simp only [adjustHeapLoop]
    split
    · rename_i hc
      rw [getD_take_of_lt v (2 * (hole + 1)) n default (by omega),
        getD_take_of_lt v (2 * (hole + 1) - 1) n default (by omega)]
      split
      · rw [ih, List.set_take, getD_take_of_lt v _ n default (by omega)]
      · rw [ih, List.set_take, getD_take_of_lt v _ n default (by omega)]
    · rfl

theorem take_adjustHeap (v : List Event) (len n : Nat) (value : Event) (hn : len ≤ n)
    (h1 : 1 ≤ len) (hv : len ≤ v.length) :
    (adjustHeap v len value).take n = adjustHeap (v.take n) len value := by
  have hcomm := take_adjustHeapLoop len v 0 len n hn
  have hb := (adjustHeapLoop_spec len (v.take len) 0 len (by simp; omega) (by omega)).2.1
  have hcomm2 := take_adjustHeapLoop len v 0 len len (le_refl _)
  have hb2 : (adjustHeapLoop len v 0 len).2 < len := by
    have := congrArg Prod.snd hcomm2
    simp only at this
    rw [this]; exact hb
  simp only [adjustHeap, pushHeap]
  rw [← hcomm]
  simp only []
  split
  · rename_i hc
    simp only []
    rw [take_pushHeapLoop _ _ _ _ _ (by omega), List.set_take,
      getD_take_of_lt _ _ n default (by omega)]
  · rw [take_pushHeapLoop _ _ _ _ _ (by omega)]

/-! ## `push`, `pop` and `top` -/

theorem pqPush_length (c : List Event) (x : Event) : (pqPush c x).length = c.length + 1 := by
  simp [pqPush, pushHeap_length]

theorem pqPush_perm (c : List Event) (x : Event) : (pqPush c x).Perm (x :: c) := by
  unfold pqPush pushHeap
  refine (pushHeapLoop_perm _ _ _ _ (by simp)).trans ?_
  have : (c ++ [x]).set c.length x = c ++ [x] := by
    rw [List.set_append_right _ _ (le_refl _)]
    simp
  rw [this]
  exact List.perm_append_singleton x c

theorem pqPush_isHeap (c : List Event) (x : Event) (h : IsHeap c) : IsHeap (pqPush c x) := by
  unfold pqPush pushHeap
  apply pushHeapLoop_isHeap _ _ _ _ (le_refl _) (by simp)
  · refine ⟨fun i h0 hi hne hpne => ?_, fun i h0 hi hpi hpos => ?_⟩
    · simp only [List.length_append, List.length_singleton] at hi
      have hi' : i < c.length := by omega
      rw [List.getD_append _ _ _ _ hi', List.getD_append _ _ _ _ (by omega)]
      exact h i h0 hi'
    · simp only [List.length_append, List.length_singleton] at hi
      omega
  · intro i h0 hi hpi
    simp only [List.length_append, List.length_singleton] at hi
    omega

/-- On a queue of at least two elements, `pop` is `__adjust_heap` run on the
vector without its last slot, with the last element as `value`. -/
theorem pqPop_eq (c : List Event) (h : 1 < c.length) :
    pqPop c = adjustHeap c.dropLast (c.length - 1) (c.getD (c.length - 1) default) := by
  unfold pqPop
  rw [if_pos h]
  simp only []
  rw [List.dropLast_eq_take]
  rw [adjustHeap_length, List.length_set]
  rw [take_adjustHeap _ _ _ _ (le_refl _) (by omega) (by simp), List.set_take,
    List.set_eq_of_length_le (by simp), List.dropLast_eq_take]

theorem pqPop_length (c : List Event) : (pqPop c).length = c.length - 1 := by
  unfold pqPop
  split
  · simp [adjustHeap_length]
  · simp

theorem pqPop_perm (c : List Event) (a : Event) (h : pqTop c = some a) :
    (a :: pqPop c).Perm c := by
  match c, h with
  | [b], h =>
    simp only [pqTop, List.head?_cons, Option.some.injEq] at h
    subst h
    simp [pqPop]
  | b :: b2 :: t, h =>
    simp only [pqTop, List.head?_cons, Option.some.injEq] at h
    subst h
    have hlen : 1 < (b :: b2 :: t).length := by simp
    rw [pqPop_eq _ hlen]
    have hsp := adjustHeap_spec (b :: b2 :: t).dropLast ((b :: b2 :: t).length - 1)
      ((b :: b2 :: t).getD ((b :: b2 :: t).length - 1) default) (by simp) (by simp)
    refine (hsp.2.1.cons b).trans ?_
    have hd : (b :: b2 :: t).dropLast = b :: (b2 :: t).dropLast := by simp
    have hg : (b :: b2 :: t).getD ((b :: b2 :: t).length - 1) default
        = (b2 :: t).getLast (by simp) := by
      rw [List.getD_eq_getElem _ _ (by simp)]
      simp [List.getLast_eq_getElem]
    rw [hd, hg, List.set_cons_zero]
    refine (List.Perm.cons b ?_)
    refine (List.perm_append_singleton _ _).symm.trans ?_
    rw [List.dropLast_append_getLast]

theorem isHeap_take (c : List Event) (n : Nat) (h : IsHeap c) : IsHeap (c.take n) := by
  intro i h0 hi
  simp only [List.length_take] at hi
  rw [getD_take_of_lt _ _ _ _ (by omega), getD_take_of_lt _ _ _ _ (by omega)]
  exact h i h0 (by omega)

theorem pqPop_isHeap (c : List Event) (h : IsHeap c) : IsHeap (pqPop c) := by
  by_cases hlen : 1 < c.length
  · rw [pqPop_eq _ hlen]
    apply (adjustHeap_spec _ _ _ (by simp) (by omega)).2.2
    rw [List.dropLast_eq_take]
    exact (isHeap_take c _ h).heapExcept 0
  · unfold pqPop
    rw [if_neg hlen]
    intro i h0 hi
    simp only [List.length_dropLast] at hi
    omega

/-- The front of a heap has the least key. -/
theorem isHeap_top_le (c : List Event) (h : IsHeap c) (i : Nat) (hi : i < c.length) :
    key (c.getD 0 default) ≤ key (c.getD i default) := by
  induction i using Nat.strong_induction_on with
  | _ i ih =>
    by_cases h0 : i = 0
    · subst h0; exact le_refl _
    · exact le_trans (ih ((i - 1) / 2) (by omega) (by omega)) (h i (by omega) hi)

theorem pqTop_le (c : List Event) (h : IsHeap c) (a : Event) (ha : pqTop c = some a)
    (x : Event) (hx : x ∈ c) : key a ≤ key x := by
  obtain ⟨i, hi, rfl⟩ := List.getElem_of_mem hx
  have := isHeap_top_le c h i hi
  rw [List.getD_eq_getElem _ _ hi] at this
  cases c with
  | nil => simp at hi
  | cons b t =>
    simp only [pqTop, List.head?_cons, Option.some.injEq] at ha
    subst ha
    simpa using this

/-! ## Draining a queue -/

theorem drainLoop_perm (fuel : Nat) (c : List Event) (hf : c.length ≤ fuel) :
    (drainLoop fuel c).Perm c := by
  induction fuel generalizing c with
  | zero =>
    have : c = [] := List.length_eq_zero.1 (by omega)
    subst this
    simp [drainLoop]
  | succ n ih =>
    simp only [drainLoop]
    cases hc : pqTop c with
    | none =>
      have : c = [] := by
        cases c with
        | nil => rfl
        | cons b t => simp [pqTop] at hc
      subst this
      simp
    | some a =>
      simp only []
      have hl := pqPop_length c
      exact ((ih (pqPop c) (by omega)).cons a).trans (pqPop_perm c a hc)

theorem drainLoop_sorted (fuel : Nat) (c : List Event) (hf : c.length ≤ fuel) (h : IsHeap c) :
    (drainLoop fuel c).Pairwise (fun a b => key a ≤ key b) := by
  induction fuel generalizing c with
  | zero => simp [drainLoop]
  | succ n ih =>
    simp only [drainLoop]
    cases hc : pqTop c with
    | none => simp
    | some a =>
      simp only []
      have hl := pqPop_length c
      refine List.Pairwise.cons ?_ (ih (pqPop c) (by omega) (pqPop_isHeap c h))
      intro x hx
      have hx1 : x ∈ pqPop c := (drainLoop_perm n (pqPop c) (by omega)).subset hx
      have hx2 : x ∈ c := (pqPop_perm c a hc).subset (List.mem_cons_of_mem _ hx1)
      exact pqTop_le c h a hc x hx2

theorem drain_perm (c : List Event) : (drain c).Perm c := drainLoop_perm _ _ (le_refl _)

theorem drain_sorted (c : List Event) (h : IsHeap c) :
    (drain c).Pairwise (fun a b => key a ≤ key b) := drainLoop_sorted _ _ (le_refl _) h

/-- Draining yields the front first, then the drain of the popped queue. -/
theorem drain_cons (c : List Event) (a : Event) (h : pqTop c = some a) :
    drain c = a :: drain (pqPop c) := by
  unfold drain
  cases hc : c.length with
  | zero =>
    have : c = [] := List.length_eq_zero.1 hc
    subst this
    simp [pqTop] at h
  | succ n =>
    simp only [drainLoop, h]
    rw [pqPop_length, hc]
    rfl

theorem drain_nil : drain [] = [] := rfl

/-! ## The map -/

theorem mapContains_iff (m : List (String × Event)) (name : String) :
    mapContains m name = true ↔ name ∈ m.map Prod.fst := by
  unfold mapContains
  simp only [List.any_eq_true, beq_iff_eq, List.mem_map]

theorem mapContains_false_iff (m : List (String × Event)) (name : String) :
    mapContains m name = false ↔ name ∉ m.map Prod.fst := by
  rw [← mapContains_iff]; simp

theorem mapAssign_new (m : List (String × Event)) (name : String) (e : Event)
    (h : mapContains m name = false) : mapAssign m name e = (name, e) :: m := by
  simp [mapAssign, h]

theorem mapContains_mapErase (m : List (String × Event)) (name : String) :
    mapContains (mapErase m name) name = false := by
  rw [mapContains_false_iff]
  simp [mapErase]

theorem mapErase_of_not_mem (m : List (String × Event)) (name : String)
    (h : name ∉ m.map Prod.fst) : mapErase m name = m := by
  unfold mapErase
  rw [List.filter_eq_self]
  intro kv hkv
  simp only [Bool.not_eq_true', beq_eq_false_iff_ne, ne_eq]
  intro heq
  exact h (List.mem_map.2 ⟨kv, hkv, heq⟩)

theorem mapErase_perm (m : List (String × Event)) (k : String) (v : Event)
    (hnd : (m.map Prod.fst).Nodup) (hm : (k, v) ∈ m) : m.Perm ((k, v) :: mapErase m k) := by
  induction m with
  | nil => simp at hm
  | cons kv t ih =>
    simp only [List.map_cons, List.nodup_cons] at hnd
    by_cases hk : kv.1 = k
    · have hkt : k ∉ t.map Prod.fst := hk ▸ hnd.1
      have hkv : kv = (k, v) := by
        rcases List.mem_cons.1 hm with h | h
        · exact h.symm
        · exact absurd (List.mem_map.2 ⟨(k, v), h, rfl⟩) hkt
      have : mapErase (kv :: t) k = t := by
        have h2 := mapErase_of_not_mem t k hkt
        unfold mapErase at h2 ⊢
        simp [List.filter_cons, hk, h2]
      rw [this, hkv]
    · have hmt : (k, v) ∈ t := by
        rcases List.mem_cons.1 hm with h | h
        · exact absurd (by rw [← h]) hk
        · exact h
      have : mapErase (kv :: t) k = kv :: mapErase t k := by
        unfold mapErase
        simp [List.filter_cons, hk]
      rw [this]
      exact ((ih hnd.2 hmt).cons kv).trans (List.Perm.swap _ _ _)

theorem mapErase_sublist (m : List (String × Event)) (name : String) :
    (mapErase m name).Sublist m := List.filter_sublist _

theorem mapFind_cons (m : List (String × Event)) (k n : String) (e : Event) :
    mapFind ((k, e) :: m) n = if k = n then some e else mapFind m n := by
  unfold mapFind
  by_cases h : k = n <;> simp [List.find?_cons, h]

theorem mapFind_mapErase_ne (m : List (String × Event)) (name n : String) (h : n ≠ name) :
    mapFind (mapErase m name) n = mapFind m n := by
  unfold mapFind mapErase
  induction m with
  | nil => rfl
  | cons kv t ih =>
    by_cases h1 : kv.1 = name
    · have h2 : kv.1 ≠ n := by rw [h1]; exact Ne.symm h
      simp only [List.filter_cons, h1, beq_self_eq_true, Bool.not_true, Bool.false_eq_true,
        if_false, List.find?_cons]
      rw [ih]
      have : (name == n) = false := by simpa using Ne.symm h
      simp [this]
    · simp only [List.filter_cons, h1, beq_iff_eq, not_false_eq_true, Bool.not_eq_true',
        beq_eq_false_iff_ne, ne_eq, if_true, List.find?_cons]
      by_cases h2 : kv.1 = n
      · simp [h2]
      · have : (kv.1 == n) = false := by simpa using h2
        simp only [this]
        exact ih

theorem mapFind_eq_none (m : List (String × Event)) (n : String)
    (h : mapContains m n = false) : mapFind m n = none := by
  rw [mapContains_false_iff] at h
  unfold mapFind
  rw [Option.map_eq_none', List.find?_eq_none]
  intro kv hkv heq
  exact h (List.mem_map.2 ⟨kv, hkv, by simpa using heq⟩)

/-! ## The enumeration -/

theorem peekOrdered_eq (s : EventScheduler) : s.peekOrdered = drain s.eventQueue := rfl

theorem peekOrdered_perm (s : EventScheduler) : s.peekOrdered.Perm s.eventQueue := by
  rw [peekOrdered_eq]; exact drain_perm _

/-! ## The invariant holds in every reachable state -/

theorem isHeap_nil : IsHeap [] := by
  intro i _ hi
  simp at hi

theorem inv_empty : Inv ⟨[], []⟩ :=
  ⟨isHeap_nil, List.Perm.refl _, List.nodup_nil, by simp, by simp⟩

theorem inv_addEvent (s : EventScheduler) (name : String) (priority time : Int)
    (description : String) (hp : isInt priority) (ht : isInt time) (h : Inv s) :
    Inv (s.addEvent name priority time description).1 := by
  unfold EventScheduler.addEvent
  cases hc : mapContains s.eventMap name with
  | true => simpa using h
  | false =>
    simp only [Bool.false_eq_true, if_false]
    rw [mapAssign_new _ _ _ hc]
    refine ⟨pqPush_isHeap _ _ h.heap, ?_, ?_, ?_, ?_⟩
    · exact (pqPush_perm _ _).trans (h.sync.cons _)
    · simp only [List.map_cons, List.nodup_cons]
      exact ⟨(mapContains_false_iff _ _).1 hc, h.keys⟩
    · intro kv hkv
      rcases List.mem_cons.1 hkv with h1 | h1
      · rw [h1]
      · exact h.names kv h1
    · intro kv hkv
      rcases List.mem_cons.1 hkv with h1 | h1
      · rw [h1]; exact ⟨hp, ht⟩
      · exact h.ints kv h1

theorem inv_mapErase_aux (s : EventScheduler) (name : String) (h : Inv s) :
    ((mapErase s.eventMap name).map Prod.fst).Nodup ∧
    (∀ kv ∈ mapErase s.eventMap name, kv.2.name = kv.1) ∧
    (∀ kv ∈ mapErase s.eventMap name, isInt kv.2.priority ∧ isInt kv.2.time) :=
  ⟨h.keys.sublist ((mapErase_sublist _ _).map _),
    fun kv hkv => h.names kv ((mapErase_sublist _ _).subset hkv),
    fun kv hkv => h.ints kv ((mapErase_sublist _ _).subset hkv)⟩

/-- The entry of a queued event: it is filed under its own name. -/
theorem Inv.mem_map {s : EventScheduler} (h : Inv s) (a : Event) (ha : a ∈ s.eventQueue) :
    (a.name, a) ∈ s.eventMap := by
  have := h.sync.subset ha
  obtain ⟨kv, hkv, rfl⟩ := List.mem_map.1 this
  have hn := h.names kv hkv
  rw [hn]
  exact hkv

theorem pqTop_mem (c : List Event) (a : Event) (h : pqTop c = some a) : a ∈ c := by
  cases c with
  | nil => simp [pqTop] at h
  | cons b t =>
    simp only [pqTop, List.head?_cons, Option.some.injEq] at h
    simp [h]

theorem inv_takeNext (s : EventScheduler) (h : Inv s) : Inv s.takeNext.1 := by
  unfold EventScheduler.takeNext
  cases hc : pqTop s.eventQueue with
  | none => simpa using h
  | some a =>
    simp only []
    obtain ⟨h1, h2, h3⟩ := inv_mapErase_aux s a.name h
    refine ⟨pqPop_isHeap _ h.heap, ?_, h1, h2, h3⟩
    have hm := h.mem_map a (pqTop_mem _ _ hc)
    have hp := (mapErase_perm _ _ _ h.keys hm).map Prod.snd
    simp only [List.map_cons] at hp
    exact (List.perm_cons a).1 (((pqPop_perm _ _ hc).trans h.sync).trans hp)

theorem foldl_pqPush_perm (l : List (String × Event)) (q : List Event) :
    (l.foldl (fun q kv => pqPush q kv.2) q).Perm (q ++ l.map Prod.snd) := by
  induction l generalizing q with
  | nil => simp
  | cons kv t ih =>
    simp only [List.foldl_cons, List.map_cons]
    refine (ih _).trans ?_
    refine ((pqPush_perm q kv.2).append_right _).trans ?_
    simp only [List.cons_append]
    exact List.perm_middle.symm

theorem foldl_pqPush_isHeap (l : List (String × Event)) (q : List Event) (h : IsHeap q) :
    IsHeap (l.foldl (fun q kv => pqPush q kv.2) q) := by
  induction l generalizing q with
  | nil => simpa using h
  | cons kv t ih => exact ih _ (pqPush_isHeap _ _ h)

theorem inv_removeEvent (s : EventScheduler) (name : String) (h : Inv s) :
    Inv (s.removeEvent name).1 := by
  unfold EventScheduler.removeEvent
  cases hc : mapContains s.eventMap name with
  | false => simpa using h
  | true =>
    simp only [Bool.not_true, Bool.false_eq_true, if_false, EventScheduler.rebuildQueue]
    obtain ⟨h1, h2, h3⟩ := inv_mapErase_aux s name h
    refine ⟨foldl_pqPush_isHeap _ _ isHeap_nil, ?_, h1, h2, h3⟩
    simpa using foldl_pqPush_perm (mapErase s.eventMap name) []

theorem inv_rehash (s : EventScheduler) (m : List (String × Event)) (hm : s.eventMap.Perm m)
    (h : Inv s) : Inv ⟨s.eventQueue, m⟩ :=
  ⟨h.heap, h.sync.trans (hm.map _), (hm.map _).nodup_iff.1 h.keys,
    fun kv hkv => h.names kv (hm.symm.subset hkv),
    fun kv hkv => h.ints kv (hm.symm.subset hkv)⟩

theorem stoi_isInt (str : List Char) (v : Int) (h : stoi str = Except.ok v) : isInt v := by
  unfold stoi at h
  simp only [] at h
  split_ifs at h <;> cases h <;> assumption

theorem parseLine_isInt (line : List Char) (e : Event) (h : parseLine line = Except.ok e) :
    isInt e.priority ∧ isInt e.time := by
  unfold parseLine at h
  simp only [] at h
  split at h
  · cases h
  · split at h
    · cases h
    · split at h
      · cases h
      · rename_i hp
        split at h
        · cases h
        · split at h
          · cases h
          · rename_i ht
            split at h
            · cases h
            · simp only [Except.ok.injEq] at h
              rw [← h]
              exact ⟨stoi_isInt _ _ hp, stoi_isInt _ _ ht⟩

theorem inv_loadLoop (lines : List (List Char)) (s : EventScheduler) (h : Inv s) :
    Inv (loadLoop lines s).state := by
  induction lines generalizing s with
  | nil => simpa [loadLoop, LoadResult.state] using h
  | cons line rest ih =>
    simp only [loadLoop]
    cases hp : parseLine line with
    | error x => simpa [LoadResult.state] using h
    | ok e =>
      simp only []
      have := parseLine_isInt _ _ hp
      exact ih _ (inv_addEvent s _ _ _ _ this.1 this.2 h)

theorem inv_loadFromFile (s : EventScheduler) (file : Option (List Char)) (h : Inv s) :
    Inv (s.loadFromFile file).state := by
  cases file with
  | none => simpa [EventScheduler.loadFromFile, LoadResult.state] using h
  | some text => exact inv_loadLoop _ _ inv_empty

/-- Every reachable state satisfies the invariant. -/
theorem Reachable.inv {s : EventScheduler} (h : Reachable s) : Inv s := by
  induction h with
  | empty => exact inv_empty
  | addEvent name p t d hp ht _ ih => exact inv_addEvent _ _ _ _ _ hp ht ih
  | processNextEvent _ ih => exact inv_takeNext _ ih
  | removeEvent name _ ih => exact inv_removeEvent _ _ ih
  | loadFromFile file _ ih => exact inv_loadFromFile _ _ ih
  | rehash m _ hm ih => exact inv_rehash _ _ hm ih

/-- In a state that satisfies the invariant the enumeration is in key
order. -/
theorem Inv.sorted {s : EventScheduler} (h : Inv s) :
    s.peekOrdered.Pairwise (fun a b => key a ≤ key b) := by
  rw [peekOrdered_eq]; exact drain_sorted _ h.heap

/-- The names enumerated are the keys of the map, up to order. -/
theorem Inv.names_perm {s : EventScheduler} (h : Inv s) :
    (s.peekOrdered.map Event.name).Perm (s.eventMap.map Prod.fst) := by
  have h1 := ((peekOrdered_perm s).trans h.sync).map Event.name
  refine h1.trans ?_
  rw [List.map_map]
  have : s.eventMap.map (Event.name ∘ Prod.snd) = s.eventMap.map Prod.fst :=
    List.map_congr_left (fun kv hkv => h.names kv hkv)
  rw [this]

theorem Inv.not_mem_names {s : EventScheduler} (h : Inv s) (name : String)
    (hc : mapContains s.eventMap name = false) : name ∉ s.peekOrdered.map Event.name := by
  intro hm
  exact (mapContains_false_iff _ _).1 hc (h.names_perm.subset hm)

theorem scenario_reachable : Reachable scenario :=
  Reachable.addEvent _ _ _ _ (by decide) (by decide)
    (Reachable.addEvent _ _ _ _ (by decide) (by decide)
      (Reachable.addEvent _ _ _ _ (by decide) (by decide) Reachable.empty))

theorem tied_reachable : Reachable tied :=
  Reachable.addEvent _ _ _ _ (by decide) (by decide)
    (Reachable.addEvent _ _ _ _ (by decide) (by decide)
      (Reachable.addEvent _ _ _ _ (by decide) (by decide)
        (Reachable.addEvent _ _ _ _ (by decide) (by decide) Reachable.empty)))

theorem saveToFile_text (s : EventScheduler) :
    (s.saveToFile true).2 = some (s.peekOrdered.flatMap record) := by
  rw [peekOrdered_eq]; rfl

/-! ## Claims -/

theorem overlong_reachable : Reachable overlong :=
  Reachable.addEvent _ _ _ _ (by decide) (by decide)
    (Reachable.addEvent _ _ _ _ (by decide) (by decide) Reachable.empty)

/-- What the print loop returns is the drained queue, each event with the
text of its time. -/
theorem displayLoop_some (fuel : Nat) (q : List Event) (out : List (Event × String))
    (h : displayLoop fuel q = some out) :
    out.map Prod.fst = drainLoop fuel q ∧ ∀ p ∈ out, formatTime p.1.time = some p.2 := by
  induction fuel generalizing q out with
  | zero =>
    simp only [displayLoop, Option.some.injEq] at h
    subst h
    simp [drainLoop]
  | succ n ih =>
    simp only [displayLoop] at h
    simp only [drainLoop]
    cases ht : pqTop q with
    | none =>
      rw [ht] at h
      simp only [Option.some.injEq] at h
      subst h
      simp
    | some current =>
      rw [ht] at h
      simp only [] at h
      cases hf : formatTime current.time with
      | none => rw [hf] at h; cases h
      | some time =>
        rw [hf] at h
        simp only [] at h
        cases hr : displayLoop n (pqPop q) with
        | none => rw [hr] at h; cases h
        | some rest =>
          rw [hr] at h
          simp only [Option.some.injEq] at h
          subst h
          obtain ⟨h1, h2⟩ := ih _ _ hr
          refine ⟨by simp [h1], fun p hp => ?_⟩
          rcases List.mem_cons.1 hp with h3 | h3
          · rw [h3]; exact hf
          · exact h2 p h3

/-- The print loop has no defined result only when the time of a queued event
cannot be formatted. -/
theorem displayLoop_none (fuel : Nat) (q : List Event) (h : displayLoop fuel q = none) :
    ∃ e ∈ drainLoop fuel q, formatTime e.time = none := by
  induction fuel generalizing q with
  | zero => simp [displayLoop] at h
  | succ n ih =>
    simp only [displayLoop] at h
    simp only [drainLoop]
    cases ht : pqTop q with
    | none => rw [ht] at h; cases h
    | some current =>
      rw [ht] at h
      simp only [] at h
      cases hf : formatTime current.time with
      | none => exact ⟨current, List.mem_cons_self _ _, hf⟩
      | some time =>
        rw [hf] at h
        simp only [] at h
        cases hr : displayLoop n (pqPop q) with
        | none =>
          obtain ⟨e, he, hn⟩ := ih _ hr
          exact ⟨e, List.mem_cons_of_mem _ he, hn⟩
        | some rest => rw [hr] at h; cases h

theorem displayEvents_eq_loop (s : EventScheduler) :
    s.displayEvents = displayLoop s.eventQueue.length s.eventQueue := by
  unfold EventScheduler.displayEvents
  cases h : s.eventQueue with
  | nil => rfl
  | cons a t => simp

theorem displayEvents_some (s : EventScheduler) (out : List (Event × String))
    (h : s.displayEvents = some out) :
    out.map Prod.fst = s.peekOrdered ∧ ∀ p ∈ out, formatTime p.1.time = some p.2 := by
  rw [displayEvents_eq_loop] at h
  exact displayLoop_some _ _ _ h

theorem displayEvents_none_iff (s : EventScheduler) :
    s.displayEvents = none ↔ ∃ e ∈ s.peekOrdered, formatTime e.time = none := by
  constructor
  · intro h
    rw [displayEvents_eq_loop] at h
    exact displayLoop_none _ _ h
  · rintro ⟨e, he, hn⟩
    cases hd : s.displayEvents with
    | none => rfl
    | some out =>
      obtain ⟨h1, h2⟩ := displayEvents_some s out hd
      rw [← h1] at he
      obtain ⟨p, hp, rfl⟩ := List.mem_map.1 he
      rw [h2 p hp] at hn
      cases hn

/-- In a state that satisfies the invariant an event of smaller key stands
before an event of larger key in the enumeration. -/
theorem Inv.index_order {s : EventScheduler} (h : Inv s) (i j : Nat)
    (hi : i < s.peekOrdered.length) (hj : j < s.peekOrdered.length)
    (hlt : keyLt (s.peekOrdered.get ⟨i, hi⟩) (s.peekOrdered.get ⟨j, hj⟩)) : i < j := by
  rw [keyLt_iff] at hlt
  by_contra hij
  have hs := h.sorted
  rw [List.pairwise_iff_getElem] at hs
  rcases Nat.lt_or_eq_of_le (Nat.le_of_not_lt hij) with h1 | h1
  · have := hs j i hj hi h1
    simp only [List.get_eq_getElem] at hlt
    exact absurd hlt (not_lt_of_le this)
  · subst h1
    exact lt_irrefl _ hlt

/-- C1, evaluated where it fails, and what holds.  The scheduler `overlong`
holds `x` (priority 1, time 11200) and `y` (priority 2): in priority order
`x` comes first, but `displayEvents` has no defined result, because
`formatTime(11200)` writes past its buffer before anything of `y` is printed.
In every reachable state the enumeration in priority order holds exactly the
mapped events, an event of smaller (priority, time) strictly before an event
of larger one; `saveToFile` writes its records in that order; and
`displayEvents` prints exactly that sequence unless the time of a scheduled
event cannot be formatted. -/
theorem displayEvents_order_and_abort :
    (Reachable overlong ∧ overlong.peekOrdered.map Event.name = ["x", "y"] ∧
      (overlong.saveToFile true).2 = some "x|1|11200|\ny|2|900|\n".data ∧
      overlong.displayEvents = none) ∧
    ∀ s, Reachable s →
      s.peekOrdered.Perm (s.eventMap.map Prod.snd) ∧
      (s.saveToFile true).2 = some (s.peekOrdered.flatMap record) ∧
      (∀ (i j : Nat) (hi : i < s.peekOrdered.length) (hj : j < s.peekOrdered.length),
        keyLt (s.peekOrdered.get ⟨i, hi⟩) (s.peekOrdered.get ⟨j, hj⟩) → i < j) ∧
      (s.displayEvents = none ↔ ∃ e ∈ s.peekOrdered, formatTime e.time = none) ∧
      (∀ out, s.displayEvents = some out →
        out.map Prod.fst = s.peekOrdered ∧ ∀ p ∈ out, formatTime p.1.time = some p.2) :=
  ⟨⟨overlong_reachable, by decide, by decide, by decide⟩, fun s h =>
    ⟨(peekOrdered_perm s).trans h.inv.sync, saveToFile_text s,
      fun i j hi hj hlt => h.inv.index_order i j hi hj hlt,
      displayEvents_none_iff s, fun out hout => displayEvents_some s out hout⟩⟩

/-- C2. When the name is already in the map, `addEvent` prints the rejection
and returns the scheduler as it was: queue and map are unchanged, so the
name still maps to the original event and the enumeration is the same. -/
theorem addEvent_existing_name (s : EventScheduler) (name : String) (priority time : Int)
    (description : String) (h : mapContains s.eventMap name = true) :
    s.addEvent name priority time description = (s, Notice.alreadyExists) ∧
    mapFind (s.addEvent name priority time description).1.eventMap name
      = mapFind s.eventMap name ∧
    (s.addEvent name priority time description).1.peekOrdered = s.peekOrdered := by
  have : s.addEvent name priority time description = (s, Notice.alreadyExists) := by
    simp [EventScheduler.addEvent, h]
  rw [this]
  exact ⟨rfl, rfl, rfl⟩

theorem addEvent_existing_name_witness :
    mapContains scenario.eventMap "standup" = true ∧
    (scenario.addEvent "standup" 2 1000 "x" = (scenario, Notice.alreadyExists) ∧
    mapFind (scenario.addEvent "standup" 2 1000 "x").1.eventMap "standup"
      = mapFind scenario.eventMap "standup" ∧
    (scenario.addEvent "standup" 2 1000 "x").1.peekOrdered = scenario.peekOrdered) :=
  ⟨by decide, addEvent_existing_name scenario "standup" 2 1000 "x" (by decide)⟩

/-- C3. In every reachable state no two enumerated events share a name. -/
theorem enumerated_names_distinct (s : EventScheduler) (h : Reachable s) :
    (s.peekOrdered.map Event.name).Nodup :=
  h.inv.names_perm.nodup_iff.2 h.inv.keys

theorem enumerated_names_distinct_witness :
    Reachable tied ∧ (tied.peekOrdered.map Event.name).Nodup :=
  ⟨tied_reachable, enumerated_names_distinct tied tied_reachable⟩

/-- C4. When the name is not in the map, `addEvent` prints the confirmation
and inserts the new event into both structures: the map sends the name to
the new event and every other name to what it was sent to before, and queue
and enumeration hold the new event and exactly the events they held. -/
theorem addEvent_new_name (s : EventScheduler) (name : String) (priority time : Int)
    (description : String) (h : mapContains s.eventMap name = false) :
    (s.addEvent name priority time description).2 = Notice.added name ∧
    mapFind (s.addEvent name priority time description).1.eventMap name
      = some ⟨name, priority, time, description⟩ ∧
    (∀ n, n ≠ name → mapFind (s.addEvent name priority time description).1.eventMap n
      = mapFind s.eventMap n) ∧
    (s.addEvent name priority time description).1.eventQueue.Perm
      (⟨name, priority, time, description⟩ :: s.eventQueue) ∧
    (s.addEvent name priority time description).1.peekOrdered.Perm
      (⟨name, priority, time, description⟩ :: s.peekOrdered) ∧
    (⟨name, priority, time, description⟩ : Event)
      ∈ (s.addEvent name priority time description).1.peekOrdered := by
  have hq : (s.addEvent name priority time description) =
      (⟨pqPush s.eventQueue ⟨name, priority, time, description⟩,
        (name, ⟨name, priority, time, description⟩) :: s.eventMap⟩, Notice.added name) := by
    simp [EventScheduler.addEvent, h, mapAssign_new]
  rw [hq]
  have hperm : (EventScheduler.mk (pqPush s.eventQueue ⟨name, priority, time, description⟩)
      ((name, ⟨name, priority, time, description⟩) :: s.eventMap)).peekOrdered.Perm
      (⟨name, priority, time, description⟩ :: s.peekOrdered) :=
    ((peekOrdered_perm _).trans (pqPush_perm _ _)).trans
      ((peekOrdered_perm s).symm.cons _)
  refine ⟨rfl, ?_, fun n hn => ?_, pqPush_perm _ _, hperm, ?_⟩
  · simp [mapFind_cons]
  · simp only [mapFind_cons, if_neg (Ne.symm hn)]
  · exact hperm.symm.subset (List.mem_cons_self _ _)

theorem addEvent_new_name_witness :
    mapContains scenario.eventMap "retro" = false ∧
    ((scenario.addEvent "retro" 3 1500 "").2 = Notice.added "retro" ∧
    mapFind (scenario.addEvent "retro" 3 1500 "").1.eventMap "retro"
      = some ⟨"retro", 3, 1500, ""⟩ ∧
    (∀ n, n ≠ "retro" → mapFind (scenario.addEvent "retro" 3 1500 "").1.eventMap n
      = mapFind scenario.eventMap n) ∧
    (scenario.addEvent "retro" 3 1500 "").1.eventQueue.Perm
      (⟨"retro", 3, 1500, ""⟩ :: scenario.eventQueue) ∧
    (scenario.addEvent "retro" 3 1500 "").1.peekOrdered.Perm
      (⟨"retro", 3, 1500, ""⟩ :: scenario.peekOrdered) ∧
    (⟨"retro", 3, 1500, ""⟩ : Event) ∈ (scenario.addEvent "retro" 3 1500 "").1.peekOrdered) :=
  ⟨by decide, addEvent_new_name scenario "retro" 3 1500 "" (by decide)⟩

theorem pqTop_of_ne_nil (c : List Event) (h : c ≠ []) : ∃ a, pqTop c = some a := by
  cases c with
  | nil => exact absurd rfl h
  | cons b t => exact ⟨b, rfl⟩

theorem takeNext_of_top (s : EventScheduler) (a : Event) (h : pqTop s.eventQueue = some a) :
    s.takeNext = (⟨pqPop s.eventQueue, mapErase s.eventMap a.name⟩, some a) := by
  simp [EventScheduler.takeNext, h]

theorem takeNext_of_nil (s : EventScheduler) (h : pqTop s.eventQueue = none) :
    s.takeNext = (s, none) := by
  simp [EventScheduler.takeNext, h]

theorem processNextEvent_of_top (s : EventScheduler) (a : Event)
    (h : pqTop s.eventQueue = some a) :
    s.processNextEvent =
      match formatTime a.time with
      | none => none
      | some time =>
        some (⟨pqPop s.eventQueue, mapErase s.eventMap a.name⟩, Notice.processing a time) := by
  simp only [EventScheduler.processNextEvent, takeNext_of_top s a h]

theorem processNextEvent_of_nil (s : EventScheduler) (h : pqTop s.eventQueue = none) :
    s.processNextEvent = some (s, Notice.noEventsToProcess) := by
  simp only [EventScheduler.processNextEvent, takeNext_of_nil s h]

/-- When `processNextEvent` returns, the scheduler it returns is the one it
had built before its message. -/
theorem processNextEvent_state (s : EventScheduler) (r : EventScheduler × Notice)
    (h : s.processNextEvent = some r) : r.1 = s.takeNext.1 := by
  cases ht : pqTop s.eventQueue with
  | none =>
    rw [processNextEvent_of_nil _ ht, Option.some.injEq] at h
    rw [takeNext_of_nil _ ht, ← h]
  | some a =>
    rw [processNextEvent_of_top _ _ ht] at h
    cases hf : formatTime a.time with
    | none => rw [hf] at h; cases h
    | some time =>
      rw [hf] at h
      simp only [Option.some.injEq] at h
      rw [takeNext_of_top _ _ ht, ← h]

/-- The scheduler a call of `processNextEvent` returns is reachable. -/
theorem Reachable.of_processNextEvent {s : EventScheduler} (h : Reachable s)
    (r : EventScheduler × Notice) (hr : s.processNextEvent = some r) : Reachable r.1 := by
  rw [processNextEvent_state s r hr]
  exact Reachable.processNextEvent h

theorem mapContains_mapErase_of_false (m : List (String × Event)) (k n : String)
    (h : mapContains m n = false) : mapContains (mapErase m k) n = false := by
  rw [mapContains_false_iff] at h ⊢
  intro hm
  exact h (((mapErase_sublist m k).map _).subset hm)

/-- C5, evaluated where it fails, and what holds.  In the scheduler
`overlong` the first event has the time 11200: `processNextEvent` takes it
out of queue and map and then has no defined result, because
`formatTime(11200)` writes past its buffer.  In every reachable state that
holds an event, the first event of the enumeration has a key no scheduled
event undercuts, and `processNextEvent` has a result exactly when the time of
that event can be formatted; it then reports that event, erases its name from
the map, leaves the other names mapped as before, shortens the queue by one,
and the enumeration afterwards is the rest of the previous one in the same
order. -/
theorem processNextEvent_first_and_abort :
    (Reachable overlong ∧ overlong.peekOrdered.map Event.name = ["x", "y"] ∧
      overlong.processNextEvent = none) ∧
    ∀ s, Reachable s → s.eventMap ≠ [] →
      ∃ e rest, s.peekOrdered = e :: rest ∧
        (∀ x ∈ s.peekOrdered, ¬ keyLt x e) ∧
        mapContains s.eventMap e.name = true ∧
        (s.processNextEvent = none ↔ formatTime e.time = none) ∧
        ∀ time, formatTime e.time = some time →
          ∃ s', s.processNextEvent = some (s', Notice.processing e time) ∧
            mapContains s'.eventMap e.name = false ∧
            (∀ n, n ≠ e.name → mapFind s'.eventMap n = mapFind s.eventMap n) ∧
            s'.eventQueue.length + 1 = s.eventQueue.length ∧
            s'.peekOrdered = rest := by
  refine ⟨⟨overlong_reachable, by decide, by decide⟩, fun s h hm => ?_⟩
  have hq : s.eventQueue ≠ [] := by
    intro hq
    apply hm
    have hl := h.inv.sync.length_eq
    rw [hq, List.length_map] at hl
    exact List.length_eq_zero.1 hl.symm
  obtain ⟨a, ha⟩ := pqTop_of_ne_nil _ hq
  have hd2 : s.peekOrdered = a :: drain (pqPop s.eventQueue) := by
    rw [peekOrdered_eq, drain_cons _ _ ha]
  refine ⟨a, drain (pqPop s.eventQueue), hd2, fun x hx => ?_, ?_, ?_, fun time ht => ?_⟩
  · rw [keyLt_iff, not_lt]
    exact pqTop_le _ h.inv.heap a ha x ((peekOrdered_perm s).subset hx)
  · rw [mapContains_iff]
    exact List.mem_map.2 ⟨(a.name, a), h.inv.mem_map a (pqTop_mem _ _ ha), rfl⟩
  · rw [processNextEvent_of_top _ _ ha]
    cases formatTime a.time with
    | none => simp
    | some time => simp
  · refine ⟨⟨pqPop s.eventQueue, mapErase s.eventMap a.name⟩, ?_, mapContains_mapErase _ _,
      fun n hn => mapFind_mapErase_ne _ _ _ hn, ?_, rfl⟩
    · rw [processNextEvent_of_top _ _ ha, ht]
    · simp only [pqPop_length]
      have : 0 < s.eventQueue.length := List.length_pos.2 hq
      omega

theorem removeEvent_absent (s : EventScheduler) (name : String)
    (h : mapContains s.eventMap name = false) : s.removeEvent name = (s, Notice.notFound) := by
  simp [EventScheduler.removeEvent, h]

/-- The invariant and the absence of a name are kept by every call that does
not add the name. -/
theorem Later.keeps {n : String} {s s' : EventScheduler} (hl : Later n s s') (hi : Inv s)
    (hc : mapContains s.eventMap n = false) :
    Inv s' ∧ mapContains s'.eventMap n = false := by
  induction hl with
  | refl => exact ⟨hi, hc⟩
  | addEvent name p t d hne hp ht _ ih =>
    refine ⟨inv_addEvent _ _ _ _ _ hp ht ih.1, ?_⟩
    unfold EventScheduler.addEvent
    split
    · exact ih.2
    · rename_i hcn
      simp only [Bool.not_eq_true] at hcn
      simp only [mapAssign_new _ _ _ hcn]
      rw [mapContains_false_iff]
      simp only [List.map_cons, List.mem_cons, not_or]
      exact ⟨Ne.symm hne, (mapContains_false_iff _ _).1 ih.2⟩
  | processNextEvent _ ih =>
    refine ⟨inv_takeNext _ ih.1, ?_⟩
    unfold EventScheduler.takeNext
    split
    · exact ih.2
    · exact mapContains_mapErase_of_false _ _ _ ih.2
  | removeEvent name _ ih =>
    refine ⟨inv_removeEvent _ _ ih.1, ?_⟩
    unfold EventScheduler.removeEvent
    split
    · exact ih.2
    · exact mapContains_mapErase_of_false _ _ _ ih.2
  | rehash m _ hm ih =>
    refine ⟨inv_rehash _ _ hm ih.1, ?_⟩
    rw [mapContains_false_iff] at ih ⊢
    intro hmem
    exact ih.2 ((hm.symm.map _).subset hmem)

/-- C6. In a reachable state, once `processNextEvent` has processed the event
`E`, no event named `E.name` is enumerated, an immediate `removeEvent(E.name)`
prints "not found" and changes nothing, and the name stays out of the
enumeration through all later calls that do not add it again. -/
theorem processed_event_is_gone (s s' : EventScheduler) (E : Event) (time : String)
    (h : Reachable s) (hp : s.processNextEvent = some (s', Notice.processing E time)) :
    E.name ∉ s'.peekOrdered.map Event.name ∧
    s'.removeEvent E.name = (s', Notice.notFound) ∧
    ∀ s2, Later E.name s' s2 → E.name ∉ s2.peekOrdered.map Event.name := by
  have hboth : s' = s.takeNext.1 ∧ mapContains s'.eventMap E.name = false := by
    cases ht : pqTop s.eventQueue with
    | none =>
      rw [processNextEvent_of_nil _ ht] at hp
      simp at hp
    | some a =>
      rw [processNextEvent_of_top _ _ ht] at hp
      cases hf : formatTime a.time with
      | none => rw [hf] at hp; cases hp
      | some t =>
        rw [hf] at hp
        simp only [Option.some.injEq, Prod.mk.injEq, Notice.processing.injEq] at hp
        rw [takeNext_of_top _ _ ht, ← hp.1, ← hp.2.1]
        exact ⟨rfl, mapContains_mapErase _ _⟩
  obtain ⟨hs', hc⟩ := hboth
  have hinv : Inv s' := hs' ▸ inv_takeNext s h.inv
  refine ⟨hinv.not_mem_names _ hc, removeEvent_absent _ _ hc, fun s2 hl => ?_⟩
  obtain ⟨h1, h2⟩ := hl.keeps hinv hc
  exact h1.not_mem_names _ h2

theorem processed_event_is_gone_witness :
    Reachable scenario ∧
    scenario.processNextEvent = some
      (scenario.takeNext.1, Notice.processing ⟨"review", 1, 830, "code review"⟩ "08:30 AM") ∧
    ("review" ∉ scenario.takeNext.1.peekOrdered.map Event.name ∧
    scenario.takeNext.1.removeEvent "review" = (scenario.takeNext.1, Notice.notFound) ∧
    ∀ s2, Later "review" scenario.takeNext.1 s2 →
      "review" ∉ s2.peekOrdered.map Event.name) :=
  ⟨scenario_reachable, by decide,
    processed_event_is_gone scenario scenario.takeNext.1
      ⟨"review", 1, 830, "code review"⟩ "08:30 AM" scenario_reachable (by decide)⟩

theorem map_snd_mapErase (m : List (String × Event)) (name : String)
    (hn : ∀ kv ∈ m, kv.2.name = kv.1) :
    (mapErase m name).map Prod.snd
      = (m.map Prod.snd).filter (fun e => !(e.name == name)) := by
  induction m with
  | nil => rfl
  | cons kv t ih =>
    have h1 := hn kv (List.mem_cons_self _ _)
    have h2 := ih (fun x hx => hn x (List.mem_cons_of_mem _ hx))
    unfold mapErase at h2 ⊢
    simp only [List.filter_cons, List.map_cons, h1]
    split
    · simp only [List.map_cons, h2]
    · exact h2

/-- C7. In a reachable state, when the name is in the map, `removeEvent`
prints the confirmation and removes exactly the event of that name: the name
is no longer in the map and no event of that name is enumerated, every other
name is mapped as before, the enumeration holds exactly the other events it
held, and a second `removeEvent` of the name prints "not found". -/
theorem removeEvent_present (s : EventScheduler) (name : String) (h : Reachable s)
    (hc : mapContains s.eventMap name = true) :
    (s.removeEvent name).2 = Notice.removed name ∧
    mapContains (s.removeEvent name).1.eventMap name = false ∧
    name ∉ (s.removeEvent name).1.peekOrdered.map Event.name ∧
    (∀ n, n ≠ name → mapFind (s.removeEvent name).1.eventMap n = mapFind s.eventMap n) ∧
    (s.removeEvent name).1.peekOrdered.Perm
      (s.peekOrdered.filter (fun e => !(e.name == name))) ∧
    (s.removeEvent name).1.peekOrdered.length + 1 = s.peekOrdered.length ∧
    ((s.removeEvent name).1.removeEvent name).2 = Notice.notFound := by
  have hr : s.removeEvent name =
      (⟨(mapErase s.eventMap name).foldl (fun q kv => pqPush q kv.2) [],
        mapErase s.eventMap name⟩, Notice.removed name) := by
    simp [EventScheduler.removeEvent, hc, EventScheduler.rebuildQueue]
  have hinv : Inv (s.removeEvent name).1 := inv_removeEvent s name h.inv
  rw [hr] at hinv ⊢
  have hc' := mapContains_mapErase s.eventMap name
  have hperm : (EventScheduler.mk ((mapErase s.eventMap name).foldl (fun q kv => pqPush q kv.2) [])
      (mapErase s.eventMap name)).peekOrdered.Perm
      (s.peekOrdered.filter (fun e => !(e.name == name))) := by
    refine ((peekOrdered_perm _).trans hinv.sync).trans ?_
    simp only
    rw [map_snd_mapErase _ _ h.inv.names]
    exact (((peekOrdered_perm s).trans h.inv.sync).filter _).symm
  refine ⟨rfl, hc', hinv.not_mem_names _ hc', fun n hn => mapFind_mapErase_ne _ _ _ hn,
    hperm, ?_, ?_⟩
  · rw [hperm.length_eq]
    -- exactly one enumerated event carries the name
    obtain ⟨kv, hkv, hk⟩ := List.mem_map.1 ((mapContains_iff _ _).1 hc)
    have hkv' : (name, kv.2) ∈ s.eventMap := by rw [← hk]; exact hkv
    have hp := (mapErase_perm _ _ _ h.inv.keys hkv').map Prod.snd
    have hl := ((peekOrdered_perm s).trans h.inv.sync).trans hp
    have hl2 := (hl.filter (fun e => !(e.name == name))).length_eq
    have hn := h.inv.names _ hkv'
    simp only at hn
    rw [hl2, hl.length_eq]
    simp only [List.map_cons, List.filter_cons, hn, beq_self_eq_true, Bool.not_true,
      Bool.false_eq_true, if_false, List.length_cons]
    rw [map_snd_mapErase _ _ h.inv.names, List.filter_filter]
    simp
  · rw [removeEvent_absent _ _ hc']

theorem removeEvent_present_witness :
    Reachable scenario ∧ mapContains scenario.eventMap "lunch" = true ∧
    ((scenario.removeEvent "lunch").2 = Notice.removed "lunch" ∧
    mapContains (scenario.removeEvent "lunch").1.eventMap "lunch" = false ∧
    "lunch" ∉ (scenario.removeEvent "lunch").1.peekOrdered.map Event.name ∧
    (∀ n, n ≠ "lunch" →
      mapFind (scenario.removeEvent "lunch").1.eventMap n = mapFind scenario.eventMap n) ∧
    (scenario.removeEvent "lunch").1.peekOrdered.Perm
      (scenario.peekOrdered.filter (fun e => !(e.name == "lunch"))) ∧
    (scenario.removeEvent "lunch").1.peekOrdered.length + 1 = scenario.peekOrdered.length ∧
    ((scenario.removeEvent "lunch").1.removeEvent "lunch").2 = Notice.notFound) :=
  ⟨scenario_reachable, by decide,
    removeEvent_present scenario "lunch" scenario_reachable (by decide)⟩

/-- C8. When the name is not in the map, `removeEvent` prints "not found" and
returns the scheduler as it was: map and queue are unchanged, so the
enumeration is the same sequence, ties included. -/
theorem removeEvent_unknown_name (s : EventScheduler) (name : String)
    (h : mapContains s.eventMap name = false) :
    s.removeEvent name = (s, Notice.notFound) ∧
    (s.removeEvent name).1.eventMap = s.eventMap ∧
    (s.removeEvent name).1.eventQueue = s.eventQueue ∧
    (s.removeEvent name).1.peekOrdered = s.peekOrdered := by
  rw [removeEvent_absent s name h]
  exact ⟨rfl, rfl, rfl, rfl⟩

theorem removeEvent_unknown_name_witness :
    mapContains tied.eventMap "lunch" = false ∧
    (tied.removeEvent "lunch" = (tied, Notice.notFound) ∧
    (tied.removeEvent "lunch").1.eventMap = tied.eventMap ∧
    (tied.removeEvent "lunch").1.eventQueue = tied.eventQueue ∧
    (tied.removeEvent "lunch").1.peekOrdered = tied.peekOrdered) :=
  ⟨by decide, removeEvent_unknown_name tied "lunch" (by decide)⟩

/-! ## Decimal text -/

theorem isDigit_digitChar (d : Nat) (h : d < 10) : isDigit (digitChar d) = true := by
  interval_cases d <;> decide

theorem toNat_digitChar (d : Nat) (h : d < 10) : (digitChar d).toNat - 48 = d := by
  interval_cases d <;> decide

theorem natDigitsLoop_isDigit (fuel n : Nat) (acc : List Char)
    (hacc : ∀ c ∈ acc, isDigit c = true) :
    ∀ c ∈ natDigitsLoop fuel n acc, isDigit c = true := by
  induction fuel generalizing n acc with
  | zero => simpa [natDigitsLoop] using hacc
  | succ k ih =>
    have hcons : ∀ c ∈ digitChar (n % 10) :: acc, isDigit c = true := by
      intro c hc
      rcases List.mem_cons.1 hc with h | h
      · rw [h]; exact isDigit_digitChar _ (Nat.mod_lt _ (by decide))
      · exact hacc c h
    simp only [natDigitsLoop]
    split
    · exact hcons
    · exact ih _ _ hcons

theorem natDigitsLoop_ne_nil (fuel n : Nat) (acc : List Char) (h : 0 < fuel) :
    natDigitsLoop fuel n acc ≠ [] := by
  induction fuel generalizing n acc with
  | zero => omega
  | succ k ih =>
    simp only [natDigitsLoop]
    split
    · simp
    · cases k with
      | zero => simp [natDigitsLoop]
      | succ j => exact ih _ _ (by omega)

theorem digitsValue_cons (acc : Nat) (c : Char) (cs : List Char) :
    digitsValue acc (c :: cs) = digitsValue (10 * acc + (c.toNat - 48)) cs := rfl

theorem digitsValue_natDigitsLoop (fuel n : Nat) (acc : List Char) (h : n < fuel) :
    digitsValue 0 (natDigitsLoop fuel n acc) = digitsValue n acc := by
  induction fuel generalizing n acc with
  | zero => omega
  | succ k ih =>
    have hd := toNat_digitChar (n % 10) (Nat.mod_lt n (by decide))
    rw [natDigitsLoop]
    split
    · rename_i h0
      rw [digitsValue_cons, hd]
      congr 1
      omega
    · rename_i h0
      rw [ih _ _ (by omega), digitsValue_cons, hd]
      congr 1
      omega

theorem natDigits_isDigit (n : Nat) : ∀ c ∈ natDigits n, isDigit c = true :=
  natDigitsLoop_isDigit _ _ _ (by simp)

theorem natDigits_ne_nil (n : Nat) : natDigits n ≠ [] :=
  natDigitsLoop_ne_nil _ _ _ (by omega)

theorem digitsValue_natDigits (n : Nat) : digitsValue 0 (natDigits n) = n := by
  unfold natDigits
  rw [digitsValue_natDigitsLoop _ _ _ (by omega)]
  rfl

theorem isDigit_range (c : Char) (h : isDigit c = true) : 48 ≤ c.toNat ∧ c.toNat ≤ 57 := by
  simpa [isDigit] using h

theorem isSpace_of_isDigit (c : Char) (h : isDigit c = true) : isSpace c = false := by
  have hr := isDigit_range c h
  by_contra hs
  simp only [isSpace, Bool.not_eq_false, Bool.or_eq_true, decide_eq_true_eq] at hs
  rcases hs with ((((hs | hs) | hs) | hs) | hs) | hs <;>
    · rw [hs] at hr
      revert hr
      decide

theorem ne_of_isDigit (c x : Char) (h : isDigit c = true) (hx : isDigit x = false) : c ≠ x := by
  intro hc
  rw [hc, hx] at h
  cases h

theorem stoiSign_of_isDigit (d : Char) (rest : List Char) (h : isDigit d = true) :
    stoiSign (d :: rest) = (false, d :: rest) := by
  have h1 : d ≠ '-' := ne_of_isDigit d '-' h (by decide)
  have h2 : d ≠ '+' := ne_of_isDigit d '+' h (by decide)
  unfold stoiSign
  split
  · rename_i heq
    simp only [List.cons.injEq] at heq
    exact absurd heq.1 h1
  · rename_i heq
    simp only [List.cons.injEq] at heq
    exact absurd heq.1 h2
  · rfl

theorem stoi_digits (ds : List Char) (neg : Bool) (hne : ds ≠ [])
    (hd : ∀ c ∈ ds, isDigit c = true) :
    stoi (if neg then '-' :: ds else ds) =
      if isInt (if neg then -(digitsValue 0 ds : Int) else (digitsValue 0 ds : Int))
      then Except.ok (if neg then -(digitsValue 0 ds : Int) else (digitsValue 0 ds : Int))
      else Except.error Exn.out_of_range := by
  obtain ⟨d, rest, rfl⟩ := List.exists_cons_of_ne_nil hne
  have hdd := hd d (List.mem_cons_self _ _)
  have hsign : stoiSign (List.dropWhile isSpace (if neg then '-' :: d :: rest else d :: rest))
      = (neg, d :: rest) := by
    cases neg with
    | true =>
      have : isSpace '-' = false := by decide
      simp only [if_true, List.dropWhile_cons, this]
      rfl
    | false =>
      simp only [Bool.false_eq_true, if_false, List.dropWhile_cons, isSpace_of_isDigit d hdd]
      exact stoiSign_of_isDigit d rest hdd
  have htw : List.takeWhile isDigit (d :: rest) = d :: rest :=
    List.takeWhile_eq_self_iff.2 hd
  unfold stoi
  simp only [hsign, htw]
  simp

/-- Reading back the decimal text of an `int` gives the `int`. -/
theorem stoi_decimal (i : Int) (h : isInt i) : stoi (decimal i) = Except.ok i := by
  have hs := stoi_digits (natDigits i.natAbs) (decide (i < 0)) (natDigits_ne_nil _)
    (natDigits_isDigit _)
  rw [digitsValue_natDigits] at hs
  unfold decimal
  by_cases hneg : i < 0
  · simp only [hneg, decide_True, if_true] at hs ⊢
    have : -(i.natAbs : Int) = i := by omega
    rw [this] at hs
    rw [hs, if_pos h]
  · simp only [hneg, decide_False, Bool.false_eq_true, if_false] at hs ⊢
    have : (i.natAbs : Int) = i := by omega
    rw [this] at hs
    rw [hs, if_pos h]

theorem decimal_chars (i : Int) : ∀ c ∈ decimal i, c = '-' ∨ isDigit c = true := by
  intro c hc
  unfold decimal at hc
  split at hc
  · rcases List.mem_cons.1 hc with h | h
    · exact Or.inl h
    · exact Or.inr (natDigits_isDigit _ c h)
  · exact Or.inr (natDigits_isDigit _ c hc)

theorem bar_not_mem_decimal (i : Int) : '|' ∉ decimal i := by
  intro h
  rcases decimal_chars i _ h with h1 | h1
  · revert h1; decide
  · revert h1; decide

theorem newline_not_mem_decimal (i : Int) : '\n' ∉ decimal i := by
  intro h
  rcases decimal_chars i _ h with h1 | h1
  · revert h1; decide
  · revert h1; decide

/-! ## Splitting a line -/

theorem strFind_append (pre a b : List Char) (ch : Char) (h : ch ∉ a) :
    strFind (pre ++ (a ++ ch :: b)) ch pre.length = pre.length + a.length := by
  unfold strFind
  simp only [List.drop_left]
  rw [List.indexOf_append_of_not_mem h, List.indexOf_cons_self]
  simp

theorem substr_append (pre a b : List Char) :
    substr (pre ++ (a ++ b)) pre.length a.length = Except.ok a := by
  unfold substr
  rw [if_neg (by simp), List.drop_left, List.take_left]

theorem substr_to_end (pre a : List Char) (h : a.length ≤ npos) :
    substr (pre ++ a) pre.length npos = Except.ok a := by
  unfold substr
  rw [if_neg (by simp), List.drop_left, List.take_of_length_le h]

/-- A line with three separators splits at the first three: the name is the
text before the first, the numbers are read from the text between them, the
description is all the text after the third. -/
theorem parseLine_fields (N P T D : List Char) (hN : '|' ∉ N) (hP : '|' ∉ P) (hT : '|' ∉ T)
    (hlen : (N ++ '|' :: (P ++ '|' :: (T ++ '|' :: D))).length < 2 ^ 64) :
    parseLine (N ++ '|' :: (P ++ '|' :: (T ++ '|' :: D))) =
      match stoi P with
      | Except.error x => Except.error x
      | Except.ok p =>
        match stoi T with
        | Except.error x => Except.error x
        | Except.ok t => Except.ok ⟨String.mk N, p, t, String.mk D⟩ := by
  simp only [List.length_append, List.length_cons] at hlen
  have e1 : strFind (N ++ '|' :: (P ++ '|' :: (T ++ '|' :: D))) '|' 0 = N.length := by
    have := strFind_append [] N (P ++ '|' :: (T ++ '|' :: D)) '|' hN
    simpa using this
  have a1 : sizeAdd N.length 1 = N.length + 1 := by
    unfold sizeAdd; exact Nat.mod_eq_of_lt (by omega)
  have e2 : strFind (N ++ '|' :: (P ++ '|' :: (T ++ '|' :: D))) '|' (N.length + 1)
      = N.length + 1 + P.length := by
    have := strFind_append (N ++ ['|']) P (T ++ '|' :: D) '|' hP
    simpa using this
  have a2 : sizeAdd (N.length + 1 + P.length) 1 = N.length + 1 + P.length + 1 := by
    unfold sizeAdd; exact Nat.mod_eq_of_lt (by omega)
  have hl3 : (N ++ '|' :: (P ++ ['|'])).length = N.length + 1 + P.length + 1 := by
    simp only [List.length_append, List.length_cons, List.length_singleton, List.length_nil]
    omega
  have e3 : strFind (N ++ '|' :: (P ++ '|' :: (T ++ '|' :: D))) '|' (N.length + 1 + P.length + 1)
      = N.length + 1 + P.length + 1 + T.length := by
    have := strFind_append (N ++ '|' :: (P ++ ['|'])) T D '|' hT
    rw [hl3] at this
    simpa using this
  have a3 : sizeAdd (N.length + 1 + P.length + 1 + T.length) 1
      = N.length + 1 + P.length + 1 + T.length + 1 := by
    unfold sizeAdd; exact Nat.mod_eq_of_lt (by omega)
  have b2 : sizeSub (sizeSub (N.length + 1 + P.length) N.length) 1 = P.length := by
    unfold sizeSub; omega
  have b3 : sizeSub (sizeSub (N.length + 1 + P.length + 1 + T.length) (N.length + 1 + P.length)) 1
      = T.length := by
    unfold sizeSub; omega
  have s1 : substr (N ++ '|' :: (P ++ '|' :: (T ++ '|' :: D))) 0 N.length = Except.ok N := by
    have := substr_append [] N ('|' :: (P ++ '|' :: (T ++ '|' :: D)))
    simpa using this
  have s2 : substr (N ++ '|' :: (P ++ '|' :: (T ++ '|' :: D))) (N.length + 1) P.length
      = Except.ok P := by
    have := substr_append (N ++ ['|']) P ('|' :: (T ++ '|' :: D))
    simpa using this
  have s3 : substr (N ++ '|' :: (P ++ '|' :: (T ++ '|' :: D))) (N.length + 1 + P.length + 1)
      T.length = Except.ok T := by
    have := substr_append (N ++ '|' :: (P ++ ['|'])) T ('|' :: D)
    rw [hl3] at this
    simpa using this
  have hl4 : (N ++ '|' :: (P ++ '|' :: (T ++ ['|']))).length
      = N.length + 1 + P.length + 1 + T.length + 1 := by
    simp only [List.length_append, List.length_cons, List.length_singleton, List.length_nil]
    omega
  have s4 : substr (N ++ '|' :: (P ++ '|' :: (T ++ '|' :: D)))
      (N.length + 1 + P.length + 1 + T.length + 1) npos = Except.ok D := by
    have := substr_to_end (N ++ '|' :: (P ++ '|' :: (T ++ ['|']))) D (by unfold npos; omega)
    rw [hl4] at this
    simpa using this
  unfold parseLine
  simp only [e1, a1, e2, a2, e3, a3, b2, b3, s1, s2, s3, s4]

theorem parseLine_recordLine (e : Event) (hN : '|' ∉ e.name.data)
    (hp : isInt e.priority) (ht : isInt e.time) (hlen : (recordLine e).length < 2 ^ 64) :
    parseLine (recordLine e) = Except.ok e := by
  unfold recordLine at hlen ⊢
  rw [parseLine_fields _ _ _ _ hN (bar_not_mem_decimal _) (bar_not_mem_decimal _) hlen,
    stoi_decimal _ hp, stoi_decimal _ ht]

/-! ## Cutting a text into lines -/

theorem getlines_append (l rest : List Char) (h : '\n' ∉ l) :
    getlines (l ++ '\n' :: rest) = l :: getlines rest := by
  induction l with
  | nil => simp [getlines]
  | cons c t ih =>
    simp only [List.mem_cons, not_or] at h
    have hc : c ≠ '\n' := fun hc => h.1 hc.symm
    rw [List.cons_append, getlines, if_neg hc, ih h.2]

theorem newline_not_mem_recordLine (e : Event) (h1 : '\n' ∉ e.name.data)
    (h2 : '\n' ∉ e.description.data) : '\n' ∉ recordLine e := by
  unfold recordLine
  simp only [List.mem_append, List.mem_cons, not_or]
  refine ⟨h1, by decide, newline_not_mem_decimal _, by decide, newline_not_mem_decimal _,
    by decide, h2⟩

theorem getlines_records (es : List Event)
    (h : ∀ e ∈ es, '\n' ∉ e.name.data ∧ '\n' ∉ e.description.data) :
    getlines (es.flatMap record) = es.map recordLine := by
  induction es with
  | nil => rfl
  | cons e t ih =>
    have he := h e (List.mem_cons_self _ _)
    simp only [List.flatMap_cons, List.map_cons, record, List.append_assoc, List.singleton_append]
    rw [getlines_append _ _ (newline_not_mem_recordLine e he.1 he.2),
      ih (fun x hx => h x (List.mem_cons_of_mem _ hx))]

/-! ## Loading what was saved -/

/-- The loop of `loadFromFile` on the records of `es`: one `addEvent` per
event, in order. -/
theorem loadLoop_records (es : List Event) (s : EventScheduler)
    (h : ∀ e ∈ es, parseLine (recordLine e) = Except.ok e) :
    loadLoop (es.map recordLine) s = LoadResult.loaded
      (es.foldl (fun st e => (st.addEvent e.name e.priority e.time e.description).1) s) := by
  induction es generalizing s with
  | nil => rfl
  | cons e t ih =>
    simp only [List.map_cons, loadLoop, h e (List.mem_cons_self _ _), List.foldl_cons]
    exact ih _ (fun x hx => h x (List.mem_cons_of_mem _ hx))

theorem foldl_addEvent_queue (es : List Event) (s : EventScheduler)
    (hnd : (es.map Event.name).Nodup)
    (hfresh : ∀ e ∈ es, mapContains s.eventMap e.name = false) :
    (es.foldl (fun st e => (st.addEvent e.name e.priority e.time e.description).1) s).eventQueue.Perm
      (s.eventQueue ++ es) := by
  induction es generalizing s with
  | nil => simp
  | cons e t ih =>
    simp only [List.map_cons, List.nodup_cons] at hnd
    have he := hfresh e (List.mem_cons_self _ _)
    have hadd : (s.addEvent e.name e.priority e.time e.description).1 =
        ⟨pqPush s.eventQueue e, (e.name, e) :: s.eventMap⟩ := by
      simp [EventScheduler.addEvent, he, mapAssign_new]
    simp only [List.foldl_cons]
    refine (ih _ hnd.2 ?_).trans ?_
    · intro x hx
      rw [hadd, mapContains_false_iff]
      simp only [List.map_cons, List.mem_cons, not_or]
      refine ⟨?_, (mapContains_false_iff _ _).1 (hfresh x (List.mem_cons_of_mem _ hx))⟩
      intro hxe
      exact hnd.1 (hxe ▸ List.mem_map_of_mem _ hx)
    · rw [hadd]
      simp only
      refine ((pqPush_perm _ _).append_right t).trans ?_
      simp only [List.cons_append]
      exact List.perm_middle.symm

theorem foldl_addEvent_inv (es : List Event) (s : EventScheduler) (h : Inv s)
    (hint : ∀ e ∈ es, isInt e.priority ∧ isInt e.time) :
    Inv (es.foldl (fun st e => (st.addEvent e.name e.priority e.time e.description).1) s) := by
  induction es generalizing s with
  | nil => simpa using h
  | cons e t ih =>
    have he := hint e (List.mem_cons_self _ _)
    exact ih _ (inv_addEvent s _ _ _ _ he.1 he.2 h) (fun x hx => hint x (List.mem_cons_of_mem _ hx))

/-- Two enumerations in key order that hold the same events are the same
sequence when no two of the events have the same key. -/
theorem eq_of_sorted_perm (l₁ l₂ : List Event) (hp : l₁.Perm l₂)
    (h1 : l₁.Pairwise (fun a b => key a ≤ key b)) (h2 : l₂.Pairwise (fun a b => key a ≤ key b))
    (hk : l₂.Pairwise (fun a b => key a ≠ key b)) : l₁ = l₂ := by
  have hk1 : l₁.Pairwise (fun a b => key a ≠ key b) :=
    hp.symm.pairwise hk (fun h => Ne.symm h)
  have s1 : l₁.Pairwise (fun a b => key a < key b) :=
    (h1.and hk1).imp (fun h => lt_of_le_of_ne h.1 h.2)
  have s2 : l₂.Pairwise (fun a b => key a < key b) :=
    (h2.and hk).imp (fun h => lt_of_le_of_ne h.1 h.2)
  exact List.Perm.eq_of_sorted (fun a b _ _ hab hba => absurd hab (not_lt_of_gt hba)) s1 s2 hp

theorem multiline_reachable : Reachable multiline :=
  Reachable.addEvent _ _ _ _ (by decide) (by decide) Reachable.empty

theorem key_ne_of_fields (a b : Event) (h : ¬ (a.priority = b.priority ∧ a.time = b.time)) :
    key a ≠ key b := by
  intro hk
  apply h
  have := toLex.injective hk
  simp only [Prod.mk.injEq] at this
  exact this

theorem Inv.isInt_of_mem {s : EventScheduler} (h : Inv s) (e : Event)
    (he : e ∈ s.peekOrdered) : isInt e.priority ∧ isInt e.time := by
  have := ((peekOrdered_perm s).trans h.sync).subset he
  obtain ⟨kv, hkv, rfl⟩ := List.mem_map.1 this
  exact h.ints kv hkv

theorem Inv.sorted_keyLt {s : EventScheduler} (h : Inv s) :
    s.peekOrdered.Pairwise (fun a b => ¬ keyLt b a) :=
  h.sorted.imp (fun hab => by rw [keyLt_iff]; exact not_lt_of_le hab)

/-- C9 (as amended). Save, then load: for a reachable state `S` in which no
name or description holds a `|` or a newline (every record being a C++
string, shorter than `2 ^ 64`), loading the text that saving `S` writes,
over any state `s0`, ends normally in a state whose enumeration holds exactly
the events of `S`, fields unchanged, in (priority, time) order; when no two
events of `S` have the same priority and time it is the same sequence as the
enumeration of `S`. -/
theorem save_then_load (S s0 : EventScheduler) (h : Reachable S)
    (hsep : ∀ e ∈ S.peekOrdered, '|' ∉ e.name.data ∧ '|' ∉ e.description.data ∧
      '\n' ∉ e.name.data ∧ '\n' ∉ e.description.data)
    (hlen : ∀ e ∈ S.peekOrdered, (recordLine e).length < 2 ^ 64) :
    ∃ s', s0.loadFromFile (S.saveToFile true).2 = LoadResult.loaded s' ∧
      s'.peekOrdered.Perm S.peekOrdered ∧
      s'.peekOrdered.Pairwise (fun a b => ¬ keyLt b a) ∧
      (S.peekOrdered.Pairwise (fun a b => ¬ (a.priority = b.priority ∧ a.time = b.time)) →
        s'.peekOrdered = S.peekOrdered) := by
  have hparse : ∀ e ∈ S.peekOrdered, parseLine (recordLine e) = Except.ok e := fun e he =>
    parseLine_recordLine e (hsep e he).1 (h.inv.isInt_of_mem e he).1 (h.inv.isInt_of_mem e he).2
      (hlen e he)
  have hload : s0.loadFromFile (S.saveToFile true).2 = LoadResult.loaded
      (S.peekOrdered.foldl
        (fun st e => (st.addEvent e.name e.priority e.time e.description).1) ⟨[], []⟩) := by
    rw [saveToFile_text]
    simp only [EventScheduler.loadFromFile]
    rw [getlines_records _ (fun e he => ⟨(hsep e he).2.2.1, (hsep e he).2.2.2⟩),
      loadLoop_records _ _ hparse]
  have hinv := foldl_addEvent_inv S.peekOrdered ⟨[], []⟩ inv_empty
    (fun e he => h.inv.isInt_of_mem e he)
  have hq := foldl_addEvent_queue S.peekOrdered ⟨[], []⟩
    (h.inv.names_perm.nodup_iff.2 h.inv.keys) (fun e _ => rfl)
  simp only [List.nil_append] at hq
  have hperm := (peekOrdered_perm _).trans hq
  refine ⟨_, hload, hperm, hinv.sorted_keyLt, fun hk => ?_⟩
  exact eq_of_sorted_perm _ _ hperm hinv.sorted h.inv.sorted
    (hk.imp (fun hab => key_ne_of_fields _ _ hab))

theorem save_then_load_witness :
    Reachable scenario ∧
    (∀ e ∈ scenario.peekOrdered, '|' ∉ e.name.data ∧ '|' ∉ e.description.data ∧
      '\n' ∉ e.name.data ∧ '\n' ∉ e.description.data) ∧
    (∀ e ∈ scenario.peekOrdered, (recordLine e).length < 2 ^ 64) ∧
    ∃ s', tied.loadFromFile (scenario.saveToFile true).2 = LoadResult.loaded s' ∧
      s'.peekOrdered.Perm scenario.peekOrdered ∧
      s'.peekOrdered.Pairwise (fun a b => ¬ keyLt b a) ∧
      (scenario.peekOrdered.Pairwise
        (fun a b => ¬ (a.priority = b.priority ∧ a.time = b.time)) →
        s'.peekOrdered = scenario.peekOrdered) :=
  ⟨scenario_reachable, by decide, by decide,
    save_then_load scenario tied scenario_reachable (by decide) (by decide)⟩

/-- C9, as stated, fails.  Four events of equal priority and time, added as
`A`, `B`, `C`, `D`, are enumerated `A, C, B, D`; saved and loaded into a
fresh scheduler they are enumerated `A, B, C, D`.  And an event whose name
holds a newline is saved as two lines, on the first of which the load throws
`invalid_argument`, leaving an empty scheduler. -/
theorem save_then_load_not_same_sequence :
    (Reachable tied ∧ tied.peekOrdered ≠ [] ∧
      (∀ e ∈ tied.peekOrdered, '|' ∉ e.name.data ∧ '|' ∉ e.description.data) ∧
      tied.peekOrdered.map Event.name = ["A", "C", "B", "D"] ∧
      (EventScheduler.empty.loadFromFile (tied.saveToFile true).2).state.peekOrdered.map
        Event.name = ["A", "B", "C", "D"] ∧
      (EventScheduler.empty.loadFromFile (tied.saveToFile true).2).state.peekOrdered
        ≠ tied.peekOrdered) ∧
    (Reachable multiline ∧ multiline.peekOrdered ≠ [] ∧
      (∀ e ∈ multiline.peekOrdered, '|' ∉ e.name.data ∧ '|' ∉ e.description.data) ∧
      EventScheduler.empty.loadFromFile (multiline.saveToFile true).2
        = LoadResult.thrown Exn.invalid_argument ⟨[], []⟩ ∧
      (EventScheduler.empty.loadFromFile (multiline.saveToFile true).2).state.peekOrdered
        ≠ multiline.peekOrdered) :=
  ⟨⟨tied_reachable, by decide, by decide, by decide, by decide, by decide⟩,
    ⟨multiline_reachable, by decide, by decide, by decide, by decide⟩⟩

/-- C10. In a reachable state `saveToFile` writes, for the events in the
order of the enumeration (key order, one record per mapped event), the
records `name|priority|time|description` with the two numbers in decimal
(text that reads back as the number) and a newline after each; when the file
cannot be opened it writes nothing; in both cases the scheduler, map and
queue, is as before. -/
theorem saveToFile_records (s : EventScheduler) (h : Reachable s) (opened : Bool) :
    (s.saveToFile opened).1 = s ∧
    (s.saveToFile true).2 = some (s.peekOrdered.flatMap (fun e =>
      e.name.data ++ ['|'] ++ decimal e.priority ++ ['|'] ++ decimal e.time ++ ['|'] ++
        e.description.data ++ ['\n'])) ∧
    (s.saveToFile false).2 = none ∧
    s.peekOrdered.Perm (s.eventMap.map Prod.snd) ∧
    s.peekOrdered.Pairwise (fun a b => ¬ keyLt b a) ∧
    (∀ e ∈ s.peekOrdered, stoi (decimal e.priority) = Except.ok e.priority ∧
      stoi (decimal e.time) = Except.ok e.time) := by
  refine ⟨?_, ?_, rfl, (peekOrdered_perm s).trans h.inv.sync, h.inv.sorted_keyLt,
    fun e he => ?_⟩
  · cases opened <;> rfl
  · rw [saveToFile_text]
    congr 2
    funext e
    simp [record, recordLine]
  · have := h.inv.isInt_of_mem e he
    exact ⟨stoi_decimal _ this.1, stoi_decimal _ this.2⟩

theorem saveToFile_records_witness :
    Reachable scenario ∧
    (scenario.saveToFile true).2 = some
      "review|1|830|code review\nstandup|1|900|daily sync\nlunch|5|1200|\n".data ∧
    ((scenario.saveToFile true).1 = scenario ∧
    (scenario.saveToFile true).2 = some (scenario.peekOrdered.flatMap (fun e =>
      e.name.data ++ ['|'] ++ decimal e.priority ++ ['|'] ++ decimal e.time ++ ['|'] ++
        e.description.data ++ ['\n'])) ∧
    (scenario.saveToFile false).2 = none ∧
    scenario.peekOrdered.Perm (scenario.eventMap.map Prod.snd) ∧
    scenario.peekOrdered.Pairwise (fun a b => ¬ keyLt b a) ∧
    (∀ e ∈ scenario.peekOrdered, stoi (decimal e.priority) = Except.ok e.priority ∧
      stoi (decimal e.time) = Except.ok e.time)) :=
  ⟨scenario_reachable, by decide, saveToFile_records scenario scenario_reachable true⟩

/-! ## What a load puts into the scheduler -/

theorem addEvent_eta (s : EventScheduler) (e : Event) :
    (s.addEvent e.name e.priority e.time e.description).1 =
      if mapContains s.eventMap e.name then s
      else ⟨pqPush s.eventQueue e, (e.name, e) :: s.eventMap⟩ := by
  unfold EventScheduler.addEvent
  cases h : mapContains s.eventMap e.name with
  | true => simp
  | false => simp [mapAssign_new _ _ _ h]

theorem loadLoop_queue_origin (lines : List (List Char)) (s : EventScheduler) (e : Event)
    (he : e ∈ (loadLoop lines s).state.eventQueue) :
    e ∈ s.eventQueue ∨ ∃ l ∈ lines, parseLine l = Except.ok e := by
  induction lines generalizing s with
  | nil => exact Or.inl he
  | cons line rest ih =>
    simp only [loadLoop] at he
    cases hp : parseLine line with
    | error x =>
      rw [hp] at he
      exact Or.inl he
    | ok e' =>
      rw [hp] at he
      simp only [] at he
      rcases ih _ he with h | ⟨l, hl, hpl⟩
      · rw [addEvent_eta] at h
        split at h
        · exact Or.inl h
        · rcases List.mem_cons.1 ((pqPush_perm _ _).subset h) with h1 | h1
          · exact Or.inr ⟨line, List.mem_cons_self _ _, by rw [hp, h1]⟩
          · exact Or.inl h1
      · exact Or.inr ⟨l, List.mem_cons_of_mem _ hl, hpl⟩

theorem mapFind_of_mem (m : List (String × Event)) (k : String) (v : Event)
    (hnd : (m.map Prod.fst).Nodup) (h : (k, v) ∈ m) : mapFind m k = some v := by
  induction m with
  | nil => simp at h
  | cons kv t ih =>
    simp only [List.map_cons, List.nodup_cons] at hnd
    obtain ⟨k', v'⟩ := kv
    rw [mapFind_cons]
    rcases List.mem_cons.1 h with h1 | h1
    · simp only [Prod.mk.injEq] at h1
      rw [if_pos h1.1.symm, h1.2]
    · have : k' ≠ k := by
        intro hk
        exact hnd.1 (hk ▸ List.mem_map.2 ⟨(k, v), h1, rfl⟩)
      rw [if_neg this]
      exact ih hnd.2 h1

theorem mem_of_mapFind (m : List (String × Event)) (k : String) (v : Event)
    (h : mapFind m k = some v) : (k, v) ∈ m := by
  induction m with
  | nil => simp [mapFind] at h
  | cons kv t ih =>
    obtain ⟨k', v'⟩ := kv
    rw [mapFind_cons] at h
    split at h
    · rename_i hk
      simp only [Option.some.injEq] at h
      rw [hk, h]
      exact List.mem_cons_self _ _
    · exact List.mem_cons_of_mem _ (ih h)

/-- In a state that satisfies the invariant the mapped events are the
enumerated events. -/
theorem Inv.mapFind_iff {s : EventScheduler} (h : Inv s) (e : Event) :
    mapFind s.eventMap e.name = some e ↔ e ∈ s.peekOrdered := by
  constructor
  · intro hf
    have := mem_of_mapFind _ _ _ hf
    exact ((peekOrdered_perm s).trans h.sync).symm.subset (List.mem_map.2 ⟨_, this, rfl⟩)
  · intro he
    exact mapFind_of_mem _ _ _ h.keys
      (h.mem_map e ((peekOrdered_perm s).subset he))

/-- C11. A load replaces the whole state: whatever the scheduler held, loading
a readable file gives the result of loading it into an empty scheduler, and
every event enumerated or mapped afterwards is the event of a line of the
file. -/
theorem loadFromFile_replaces (s : EventScheduler) (text : List Char) :
    s.loadFromFile (some text) = EventScheduler.empty.loadFromFile (some text) ∧
    (∀ e ∈ (s.loadFromFile (some text)).state.peekOrdered,
      ∃ l ∈ getlines text, parseLine l = Except.ok e) ∧
    (∀ n e, mapFind (s.loadFromFile (some text)).state.eventMap n = some e →
      ∃ l ∈ getlines text, parseLine l = Except.ok e) := by
  have horigin : ∀ e ∈ (s.loadFromFile (some text)).state.peekOrdered,
      ∃ l ∈ getlines text, parseLine l = Except.ok e := by
    intro e he
    have hq := (peekOrdered_perm _).subset he
    rcases loadLoop_queue_origin (getlines text) ⟨[], []⟩ e hq with h | h
    · simp at h
    · exact h
  refine ⟨rfl, horigin, fun n e hf => ?_⟩
  have hinv : Inv (s.loadFromFile (some text)).state := inv_loadLoop _ _ inv_empty
  have hm := mem_of_mapFind _ _ _ hf
  have hn := hinv.names _ hm
  simp only at hn
  apply horigin
  rw [← hinv.mapFind_iff, hn]
  exact hf

theorem mapContains_of_mapFind_none (m : List (String × Event)) (n : String)
    (h : mapFind m n = none) : mapContains m n = false := by
  induction m with
  | nil => rfl
  | cons kv t ih =>
    obtain ⟨k, v⟩ := kv
    rw [mapFind_cons] at h
    split at h
    · cases h
    · rename_i hk
      rw [mapContains_false_iff]
      simp only [List.map_cons, List.mem_cons, not_or]
      exact ⟨Ne.symm hk, (mapContains_false_iff _ _).1 (ih h)⟩

theorem isOk_iff {r : Except Exn Event} : r.isOk = true ↔ ∃ e, r = Except.ok e := by
  cases r with
  | error x => simp [Except.isOk, Except.toBool]
  | ok e => simp [Except.isOk, Except.toBool]

theorem parsedEvents_cons_ok (line : List Char) (rest : List (List Char)) (e : Event)
    (h : parseLine line = Except.ok e) :
    parsedEvents (line :: rest) = e :: parsedEvents rest := by
  simp [parsedEvents, List.filterMap_cons, h]

/-- The loop of `loadFromFile` on lines that all parse: one `addEvent` per
line, in order. -/
theorem loadLoop_of_parse (lines : List (List Char)) (s : EventScheduler)
    (h : ∀ l ∈ lines, (parseLine l).isOk = true) :
    loadLoop lines s = LoadResult.loaded
      ((parsedEvents lines).foldl
        (fun st e => (st.addEvent e.name e.priority e.time e.description).1) s) := by
  induction lines generalizing s with
  | nil => rfl
  | cons line rest ih =>
    obtain ⟨e, he⟩ := isOk_iff.1 (h line (List.mem_cons_self _ _))
    rw [parsedEvents_cons_ok _ _ _ he]
    simp only [loadLoop, he, List.foldl_cons]
    exact ih _ (fun l hl => h l (List.mem_cons_of_mem _ hl))

theorem foldl_addEvent_mapFind_some (es : List Event) (s : EventScheduler) (n : String)
    (x : Event) (h : mapFind s.eventMap n = some x) :
    mapFind (es.foldl (fun st e => (st.addEvent e.name e.priority e.time e.description).1)
      s).eventMap n = some x := by
  induction es generalizing s with
  | nil => exact h
  | cons e t ih =>
    simp only [List.foldl_cons]
    apply ih
    rw [addEvent_eta]
    split
    · exact h
    · rename_i hc
      rw [mapFind_cons]
      split
      · rename_i hn
        rw [hn] at hc
        have := mapFind_eq_none _ _ (by simpa using hc)
        rw [this] at h
        cases h
      · exact h

/-- After the `addEvent` calls of a load, a name that was not mapped before
is mapped to the first of the added events that carries it. -/
theorem foldl_addEvent_mapFind_none (es : List Event) (s : EventScheduler) (n : String)
    (h : mapFind s.eventMap n = none) :
    mapFind (es.foldl (fun st e => (st.addEvent e.name e.priority e.time e.description).1)
      s).eventMap n = es.find? (fun e => e.name == n) := by
  induction es generalizing s with
  | nil => exact h
  | cons e t ih =>
    simp only [List.foldl_cons, List.find?_cons]
    by_cases hn : e.name = n
    · have hc : mapContains s.eventMap e.name = false := by
        rw [hn]; exact mapContains_of_mapFind_none _ _ h
      have h1 : (e.name == n) = true := by simpa using hn
      rw [h1]
      apply foldl_addEvent_mapFind_some
      rw [addEvent_eta, hc]
      simp only [Bool.false_eq_true, if_false, mapFind_cons, if_pos hn]
    · have h1 : (e.name == n) = false := by simpa using hn
      rw [h1]
      apply ih
      rw [addEvent_eta]
      split
      · exact h
      · rw [mapFind_cons, if_neg hn]
        exact h

theorem loadLoop_append_loaded (pre rest : List (List Char)) (s s1 : EventScheduler)
    (h : loadLoop pre s = LoadResult.loaded s1) :
    loadLoop (pre ++ rest) s = loadLoop rest s1 := by
  induction pre generalizing s with
  | nil =>
    simp only [loadLoop, LoadResult.loaded.injEq] at h
    rw [List.nil_append, h]
  | cons line t ih =>
    simp only [List.cons_append, loadLoop] at h ⊢
    cases hp : parseLine line with
    | error x => rw [hp] at h; cases h
    | ok e =>
      rw [hp] at h
      simp only [] at h ⊢
      exact ih _ h

/-- C12. When every line of the file parses and several lines carry the same
name, the load ends normally and keeps the first of them: each name is
mapped to the first event of the file that carries it, the enumeration holds
exactly those first events, one per name, and a line whose name an earlier
line carries leaves the scheduler as the lines before it left it. -/
theorem load_keeps_first_occurrence (s : EventScheduler) (text : List Char)
    (hwf : ∀ l ∈ getlines text, (parseLine l).isOk = true) :
    ∃ s', s.loadFromFile (some text) = LoadResult.loaded s' ∧
      (∀ n, mapFind s'.eventMap n
        = (parsedEvents (getlines text)).find? (fun e => e.name == n)) ∧
      (∀ e, e ∈ s'.peekOrdered ↔
        (parsedEvents (getlines text)).find? (fun x => x.name == e.name) = some e) ∧
      (s'.peekOrdered.map Event.name).Nodup ∧
      (∀ pre line post e, getlines text = pre ++ line :: post →
        parseLine line = Except.ok e → e.name ∈ (parsedEvents pre).map Event.name →
        loadLoop (pre ++ [line]) ⟨[], []⟩ = loadLoop pre ⟨[], []⟩) := by
  have hload := loadLoop_of_parse (getlines text) ⟨[], []⟩ hwf
  have hinv : Inv (loadLoop (getlines text) ⟨[], []⟩).state := inv_loadLoop _ _ inv_empty
  rw [hload] at hinv
  simp only [LoadResult.state] at hinv
  have hfind := fun n => foldl_addEvent_mapFind_none (parsedEvents (getlines text)) ⟨[], []⟩ n rfl
  refine ⟨_, hload, hfind, fun e => ?_, hinv.names_perm.nodup_iff.2 hinv.keys, ?_⟩
  · rw [← hinv.mapFind_iff, hfind]
  · intro pre line post e hsplit hp hmem
    have hpre : ∀ l ∈ pre, (parseLine l).isOk = true := fun l hl =>
      hwf l (by rw [hsplit]; exact List.mem_append_left _ hl)
    have hl1 := loadLoop_of_parse pre ⟨[], []⟩ hpre
    rw [loadLoop_append_loaded _ _ _ _ hl1, hl1]
    simp only [loadLoop, hp]
    rw [addEvent_eta]
    have hc : mapContains ((parsedEvents pre).foldl
        (fun (st : EventScheduler) (e : Event) =>
          (st.addEvent e.name e.priority e.time e.description).1)
        (EventScheduler.mk [] [])).eventMap e.name = true := by
      by_contra hcn
      have h0 := mapFind_eq_none _ _ (by simpa using hcn)
      rw [foldl_addEvent_mapFind_none (parsedEvents pre) (EventScheduler.mk [] []) e.name rfl,
        List.find?_eq_none] at h0
      obtain ⟨x, hx, hxe⟩ := List.mem_map.1 hmem
      exact h0 x hx (by simpa using hxe)
    rw [hc]
    simp

theorem load_keeps_first_occurrence_witness :
    (∀ l ∈ getlines "a|1|900|first\nb|2|800|\na|0|100|second\n".data,
      (parseLine l).isOk = true) ∧
    ∃ s', scenario.loadFromFile (some "a|1|900|first\nb|2|800|\na|0|100|second\n".data)
        = LoadResult.loaded s' ∧
      (∀ n, mapFind s'.eventMap n
        = (parsedEvents (getlines "a|1|900|first\nb|2|800|\na|0|100|second\n".data)).find?
          (fun e => e.name == n)) ∧
      (∀ e, e ∈ s'.peekOrdered ↔
        (parsedEvents (getlines "a|1|900|first\nb|2|800|\na|0|100|second\n".data)).find?
          (fun x => x.name == e.name) = some e) ∧
      (s'.peekOrdered.map Event.name).Nodup ∧
      (∀ pre line post e,
        getlines "a|1|900|first\nb|2|800|\na|0|100|second\n".data = pre ++ line :: post →
        parseLine line = Except.ok e → e.name ∈ (parsedEvents pre).map Event.name →
        loadLoop (pre ++ [line]) ⟨[], []⟩ = loadLoop pre ⟨[], []⟩) :=
  ⟨by decide, load_keeps_first_occurrence scenario _ (by decide)⟩

theorem pqPush_nil (e : Event) : pqPush [] e = [e] := rfl

theorem stoi_isOk_false_iff (str : List Char) :
    (stoi str).isOk = false ↔
      ((stoiSign (str.dropWhile isSpace)).2.takeWhile isDigit = [] ∨
        ¬ isInt (if (stoiSign (str.dropWhile isSpace)).1
          then -(digitsValue 0 ((stoiSign (str.dropWhile isSpace)).2.takeWhile isDigit) : Int)
          else (digitsValue 0 ((stoiSign (str.dropWhile isSpace)).2.takeWhile isDigit) : Int))) := by
  unfold stoi
  simp only []
  by_cases h1 : (stoiSign (str.dropWhile isSpace)).2.takeWhile isDigit = []
  · simp [h1, Except.isOk, Except.toBool]
  · by_cases h2 : isInt (if (stoiSign (str.dropWhile isSpace)).1
          then -(digitsValue 0 ((stoiSign (str.dropWhile isSpace)).2.takeWhile isDigit) : Int)
          else (digitsValue 0 ((stoiSign (str.dropWhile isSpace)).2.takeWhile isDigit) : Int))
    · simp [h1, h2, Except.isOk, Except.toBool]
    · simp [h1, h2, Except.isOk, Except.toBool]

theorem isOk_false_iff {α : Type} {r : Except Exn α} : r.isOk = false ↔ ∃ x, r = Except.error x := by
  cases r with
  | error x => simp [Except.isOk, Except.toBool]
  | ok e => simp [Except.isOk, Except.toBool]

/-- C14 (as amended). A line with three separators is a load failure exactly
when `std::stoi` rejects its second or its third field, that is when the
field, after leading white space and an optional sign, does not start with
a digit, or when its number is outside the range of `int`.  The load then
throws at that line: no event of the line is added, the scheduler is as the
lines before left it, and no later line is read. -/
theorem line_with_rejected_number (N P T D : List Char) (rest : List (List Char))
    (s : EventScheduler) (hN : '|' ∉ N) (hP : '|' ∉ P) (hT : '|' ∉ T)
    (hlen : (N ++ '|' :: (P ++ '|' :: (T ++ '|' :: D))).length < 2 ^ 64) :
    ((parseLine (N ++ '|' :: (P ++ '|' :: (T ++ '|' :: D)))).isOk = false ↔
      ((stoi P).isOk = false ∨ (stoi T).isOk = false)) ∧
    (∀ str, (stoi str).isOk = false ↔
      ((stoiSign (str.dropWhile isSpace)).2.takeWhile isDigit = [] ∨
        ¬ isInt (if (stoiSign (str.dropWhile isSpace)).1
          then -(digitsValue 0 ((stoiSign (str.dropWhile isSpace)).2.takeWhile isDigit) : Int)
          else (digitsValue 0 ((stoiSign (str.dropWhile isSpace)).2.takeWhile isDigit) : Int)))) ∧
    ((parseLine (N ++ '|' :: (P ++ '|' :: (T ++ '|' :: D)))).isOk = false →
      ∃ x, loadLoop ((N ++ '|' :: (P ++ '|' :: (T ++ '|' :: D))) :: rest) s
        = LoadResult.thrown x s) := by
  refine ⟨?_, stoi_isOk_false_iff, fun h => ?_⟩
  · rw [parseLine_fields _ _ _ _ hN hP hT hlen]
    cases stoi P with
    | error x => simp [Except.isOk, Except.toBool]
    | ok p =>
      cases stoi T with
      | error x => simp [Except.isOk, Except.toBool]
      | ok t => simp [Except.isOk, Except.toBool]
  · obtain ⟨x, hx⟩ := isOk_false_iff.1 h
    exact ⟨x, by simp only [loadLoop, hx]⟩

theorem line_with_rejected_number_witness :
    '|' ∉ "a".data ∧ '|' ∉ "high".data ∧ '|' ∉ "900".data ∧
    ("a".data ++ '|' :: ("high".data ++ '|' :: ("900".data ++ '|' :: "d".data))).length < 2 ^ 64 ∧
    (((parseLine ("a".data ++ '|' :: ("high".data ++ '|' :: ("900".data ++ '|' :: "d".data)))).isOk
        = false ↔
      ((stoi "high".data).isOk = false ∨ (stoi "900".data).isOk = false)) ∧
    (∀ str, (stoi str).isOk = false ↔
      ((stoiSign (str.dropWhile isSpace)).2.takeWhile isDigit = [] ∨
        ¬ isInt (if (stoiSign (str.dropWhile isSpace)).1
          then -(digitsValue 0 ((stoiSign (str.dropWhile isSpace)).2.takeWhile isDigit) : Int)
          else (digitsValue 0 ((stoiSign (str.dropWhile isSpace)).2.takeWhile isDigit) : Int)))) ∧
    ((parseLine ("a".data ++ '|' :: ("high".data ++ '|' :: ("900".data ++ '|' :: "d".data)))).isOk
        = false →
      ∃ x, loadLoop (("a".data ++ '|' :: ("high".data ++ '|' :: ("900".data ++ '|' :: "d".data)))
        :: ["b|1|2|".data]) scenario = LoadResult.thrown x scenario)) :=
  ⟨by decide, by decide, by decide, by decide,
    line_with_rejected_number "a".data "high".data "900".data "d".data ["b|1|2|".data] scenario
      (by decide) (by decide) (by decide) (by decide)⟩

/-- C14, as stated, fails.  The line `42` has no separator, the line `a|1|2`
has two, and the priority field of `a|12abc|3|d` is not a decimal integer;
each of them loads without a failure and adds an event. -/
theorem malformed_lines_that_load :
    ("42".data.count '|' < 3 ∧
      EventScheduler.empty.loadFromFile (some "42\n".data)
        = LoadResult.loaded ⟨[⟨"42", 42, 42, "42"⟩], [("42", ⟨"42", 42, 42, "42"⟩)]⟩) ∧
    ("a|1|2".data.count '|' < 3 ∧
      EventScheduler.empty.loadFromFile (some "a|1|2\n".data)
        = LoadResult.loaded ⟨[⟨"a", 1, 2, "a|1|2"⟩], [("a", ⟨"a", 1, 2, "a|1|2"⟩)]⟩) ∧
    ((¬ ∃ i : Int, decimal i = "12abc".data) ∧
      EventScheduler.empty.loadFromFile (some "a|12abc|3|d\n".data)
        = LoadResult.loaded ⟨[⟨"a", 12, 3, "d"⟩], [("a", ⟨"a", 12, 3, "d"⟩)]⟩) := by
  refine ⟨⟨by decide, by decide⟩, ⟨by decide, by decide⟩, ⟨?_, by decide⟩⟩
  rintro ⟨i, hi⟩
  have := decimal_chars i 'a' (by rw [hi]; decide)
  rcases this with h | h <;> revert h <;> decide

/-! ## Time formatting -/

theorem fmt02d_two_digits (n : Nat) (h : n < 100) :
    fmt02d (n : Int) = [digitChar (n / 10), digitChar (n % 10)] := by
  interval_cases n <;> rfl

/-- C15. For a time `100 * h + m` with `h ≤ 23` and `m ≤ 59`, `formatTime`
returns the hour of the 12-hour clock (12 for hour 0, the hour up to 12, the
hour less 12 from 13 on) in two digits, a colon, the minute in two digits, a
space, and `AM` before hour 12 or `PM` from hour 12 on; so `1430` gives
`02:30 PM`, `0` gives `12:00 AM` and `1200` gives `12:00 PM`. -/
theorem formatTime_in_range (h m : Nat) (hh : h ≤ 23) (hm : m ≤ 59) :
    formatTime (100 * (h : Int) + (m : Int)) = some (String.mk
      [digitChar ((if h = 0 then 12 else if h ≤ 12 then h else h - 12) / 10),
       digitChar ((if h = 0 then 12 else if h ≤ 12 then h else h - 12) % 10),
       ':', digitChar (m / 10), digitChar (m % 10), ' ',
       (if h < 12 then 'A' else 'P'), 'M']) ∧
    formatTime 1430 = some "02:30 PM" ∧
    formatTime 0 = some "12:00 AM" ∧
    formatTime 1200 = some "12:00 PM" := by
  refine ⟨?_, by decide, by decide, by decide⟩
  have hd : Int.tdiv (100 * (h : Int) + (m : Int)) 100 = (h : Int) := by
    rw [Int.tdiv_eq_ediv (by omega) (by decide)]
    omega
  have hmod : Int.tmod (100 * (h : Int) + (m : Int)) 100 = (m : Int) := by
    rw [Int.tmod_eq_emod (by omega) (by decide)]
    omega
  unfold formatTime
  simp only [hd, hmod]
  rw [fmt02d_two_digits m (by omega)]
  interval_cases h <;> rfl

theorem formatTime_in_range_witness :
    14 ≤ 23 ∧ 30 ≤ 59 ∧
    (formatTime (100 * ((14 : Nat) : Int) + ((30 : Nat) : Int)) = some (String.mk
      [digitChar ((if 14 = 0 then 12 else if 14 ≤ 12 then 14 else 14 - 12) / 10),
       digitChar ((if 14 = 0 then 12 else if 14 ≤ 12 then 14 else 14 - 12) % 10),
       ':', digitChar (30 / 10), digitChar (30 % 10), ' ',
       (if 14 < 12 then 'A' else 'P'), 'M']) ∧
    formatTime 1430 = some "02:30 PM" ∧
    formatTime 0 = some "12:00 AM" ∧
    formatTime 1200 = some "12:00 PM") :=
  ⟨by decide, by decide, formatTime_in_range 14 30 (by decide) (by decide)⟩

theorem formatTime_eq (time : Int) :
    formatTime time =
      if 6 < (formatTimeText time).length + 1 then none
      else some (String.mk (formatTimeText time) ++ " " ++
        (if Int.tdiv time 100 ≥ 12 then "PM" else "AM")) := rfl

/-- C20, evaluated where it fails.  For the times `-10` and `11200` the text
`sprintf` produces has six characters, `12:-10` and `100:00`; with the
terminator it needs seven bytes of the six-byte buffer, so `formatTime` has
no defined result.  A text of at most five characters is returned as it
is. -/
theorem formatTime_overflows_buffer :
    formatTimeText (-10) = "12:-10".data ∧ formatTime (-10) = none ∧
    formatTimeText 11200 = "100:00".data ∧ formatTime 11200 = none ∧
    (∀ time, (formatTime time).isSome = true ↔ (formatTimeText time).length ≤ 5) := by
  refine ⟨by decide, by decide, by decide, by decide, fun time => ?_⟩
  rw [formatTime_eq]
  by_cases h : 6 < (formatTimeText time).length + 1
  · rw [if_pos h]
    constructor
    · intro hc; cases hc
    · intro hc; omega
  · rw [if_neg h]
    constructor
    · intro _; omega
    · intro _; rfl

theorem removeEvent_of_contains (s : EventScheduler) (name : String)
    (hc : mapContains s.eventMap name = true) :
    s.removeEvent name =
      (⟨(mapErase s.eventMap name).foldl (fun q kv => pqPush q kv.2) [],
        mapErase s.eventMap name⟩, Notice.removed name) := by
  simp [EventScheduler.removeEvent, hc, EventScheduler.rebuildQueue]

theorem addEvent_of_not_contains (s : EventScheduler) (name : String) (priority time : Int)
    (description : String) (h : mapContains s.eventMap name = false) :
    s.addEvent name priority time description =
      (⟨pqPush s.eventQueue ⟨name, priority, time, description⟩,
        (name, ⟨name, priority, time, description⟩) :: s.eventMap⟩, Notice.added name) := by
  simp [EventScheduler.addEvent, h, mapAssign_new]

/-- C16. In a reachable state, after `removeEvent` of a name that is in the
map, `addEvent` of the same name with any priority, time and description
prints the confirmation, and the scheduler then holds exactly one event of
that name, the new one, in the map and in the enumeration. -/
theorem remove_then_add (s : EventScheduler) (name : String) (priority time : Int)
    (description : String) (h : Reachable s) (hc : mapContains s.eventMap name = true) :
    (s.removeEvent name).2 = Notice.removed name ∧
    ((s.removeEvent name).1.addEvent name priority time description).2 = Notice.added name ∧
    mapFind ((s.removeEvent name).1.addEvent name priority time description).1.eventMap name
      = some ⟨name, priority, time, description⟩ ∧
    ((s.removeEvent name).1.addEvent name priority time description).1.peekOrdered.filter
      (fun e => e.name == name) = [⟨name, priority, time, description⟩] := by
  have hinv : Inv (s.removeEvent name).1 := inv_removeEvent s name h.inv
  have hgone : mapContains (s.removeEvent name).1.eventMap name = false := by
    rw [removeEvent_of_contains s name hc]
    exact mapContains_mapErase _ _
  have hadd := addEvent_of_not_contains (s.removeEvent name).1 name priority time description
    hgone
  have hperm : ((s.removeEvent name).1.addEvent name priority time description).1.peekOrdered.Perm
      (⟨name, priority, time, description⟩ :: (s.removeEvent name).1.peekOrdered) := by
    rw [hadd]
    exact ((peekOrdered_perm _).trans (pqPush_perm _ _)).trans
      ((peekOrdered_perm (s.removeEvent name).1).symm.cons _)
  refine ⟨by rw [removeEvent_of_contains s name hc], by rw [hadd], ?_, ?_⟩
  · rw [hadd]
    simp [mapFind_cons]
  · have hf := hperm.filter (fun e => e.name == name)
    have hnone : (s.removeEvent name).1.peekOrdered.filter (fun e => e.name == name) = [] := by
      rw [List.filter_eq_nil_iff]
      intro e he hn
      exact hinv.not_mem_names name hgone (List.mem_map.2 ⟨e, he, by simpa using hn⟩)
    simp only [List.filter_cons, beq_self_eq_true, if_true, hnone] at hf
    exact List.perm_singleton.1 hf

theorem remove_then_add_witness :
    Reachable scenario ∧ mapContains scenario.eventMap "lunch" = true ∧
    ((scenario.removeEvent "lunch").2 = Notice.removed "lunch" ∧
    ((scenario.removeEvent "lunch").1.addEvent "lunch" 2 1315 "late").2 = Notice.added "lunch" ∧
    mapFind ((scenario.removeEvent "lunch").1.addEvent "lunch" 2 1315 "late").1.eventMap "lunch"
      = some ⟨"lunch", 2, 1315, "late"⟩ ∧
    ((scenario.removeEvent "lunch").1.addEvent "lunch" 2 1315 "late").1.peekOrdered.filter
      (fun e => e.name == "lunch") = [⟨"lunch", 2, 1315, "late"⟩]) :=
  ⟨scenario_reachable, by decide,
    remove_then_add scenario "lunch" 2 1315 "late" scenario_reachable (by decide)⟩

/-- C17. On the empty scheduler `processNextEvent` prints "No events to
process." and `displayEvents` lists nothing, both leave the scheduler empty,
and so does every sequence of these calls, in any order and of any length:
each call of the sequence shows the empty result. -/
theorem empty_scheduler_calls (cs : List Call) :
    EventScheduler.empty.processNextEvent
      = some (EventScheduler.empty, Notice.noEventsToProcess) ∧
    EventScheduler.empty.displayEvents = some [] ∧
    EventScheduler.empty.calls cs = some (EventScheduler.empty, cs.map (fun c =>
      match c with
      | Call.displayEvents => Shown.events []
      | Call.processNextEvent => Shown.notice Notice.noEventsToProcess)) := by
  refine ⟨rfl, rfl, ?_⟩
  induction cs with
  | nil => rfl
  | cons c t ih =>
    cases c with
    | displayEvents =>
      have hc : EventScheduler.empty.call Call.displayEvents
          = some (EventScheduler.empty, Shown.events []) := rfl
      simp only [EventScheduler.calls, hc, ih, List.map_cons]
    | processNextEvent =>
      have hc : EventScheduler.empty.call Call.processNextEvent
          = some (EventScheduler.empty, Shown.notice Notice.noEventsToProcess) := rfl
      simp only [EventScheduler.calls, hc, ih, List.map_cons]

/-- C18. In every reachable state queue and map hold the same events: each
queued event is the entry of the map for its name, each entry of the map
occurs exactly once in the queue, and the two have the same size. -/
theorem queue_and_map_in_sync (s : EventScheduler) (h : Reachable s) :
    (∀ e ∈ s.eventQueue, mapFind s.eventMap e.name = some e) ∧
    (∀ kv ∈ s.eventMap, s.eventQueue.count kv.2 = 1) ∧
    s.eventQueue.length = s.eventMap.length := by
  have hi := h.inv
  refine ⟨fun e he => mapFind_of_mem _ _ _ hi.keys (hi.mem_map e he), fun kv hkv => ?_, ?_⟩
  · have hnd : (s.eventMap.map Prod.snd).Nodup := by
      have hn : ((s.eventMap.map Prod.snd).map Event.name).Nodup := by
        rw [List.map_map]
        have : s.eventMap.map (Event.name ∘ Prod.snd) = s.eventMap.map Prod.fst :=
          List.map_congr_left (fun kv hkv => hi.names kv hkv)
        rw [this]
        exact hi.keys
      exact List.Nodup.of_map _ hn
    rw [hi.sync.count_eq]
    exact List.count_eq_one_of_mem hnd (List.mem_map_of_mem _ hkv)
  · rw [hi.sync.length_eq, List.length_map]

theorem queue_and_map_in_sync_witness :
    Reachable tied ∧
    ((∀ e ∈ tied.eventQueue, mapFind tied.eventMap e.name = some e) ∧
    (∀ kv ∈ tied.eventMap, tied.eventQueue.count kv.2 = 1) ∧
    tied.eventQueue.length = tied.eventMap.length) :=
  ⟨tied_reachable, queue_and_map_in_sync tied tied_reachable⟩

theorem loadLoop_thrown (lines : List (List Char)) (s s' : EventScheduler) (x : Exn)
    (h : loadLoop lines s = LoadResult.thrown x s') :
    ∃ pre line rest, lines = pre ++ line :: rest ∧ parseLine line = Except.error x ∧
      loadLoop pre s = LoadResult.loaded s' := by
  induction lines generalizing s with
  | nil => simp [loadLoop] at h
  | cons l t ih =>
    simp only [loadLoop] at h
    cases hp : parseLine l with
    | error y =>
      rw [hp] at h
      simp only [LoadResult.thrown.injEq] at h
      refine ⟨[], l, t, rfl, ?_, ?_⟩
      · rw [hp, h.1]
      · rw [← h.2]; rfl
    | ok e =>
      rw [hp] at h
      simp only [] at h
      obtain ⟨pre, line, rest, h1, h2, h3⟩ := ih _ h
      refine ⟨l :: pre, line, rest, by rw [h1]; rfl, h2, ?_⟩
      simp only [loadLoop, hp]
      exact h3

/-- C19 (as amended). When `loadFromFile` throws on a line, the state from
before the load is gone: queue and map were cleared before the first line
was read, and the scheduler holds what loading the lines before the failing
one into an empty scheduler gives, so every event it holds comes from one of
those lines, whatever the scheduler held before.  The state from before is
kept when the file cannot be opened. -/
theorem load_abort_leaves_partial_state (s s' : EventScheduler) (text : List Char) (x : Exn)
    (h : s.loadFromFile (some text) = LoadResult.thrown x s') :
    (∃ pre line rest, getlines text = pre ++ line :: rest ∧
      parseLine line = Except.error x ∧
      loadLoop pre ⟨[], []⟩ = LoadResult.loaded s' ∧
      ∀ e ∈ s'.peekOrdered, ∃ l ∈ pre, parseLine l = Except.ok e) ∧
    EventScheduler.empty.loadFromFile (some text) = LoadResult.thrown x s' ∧
    s.loadFromFile none = LoadResult.openFailed s := by
  refine ⟨?_, h, rfl⟩
  obtain ⟨pre, line, rest, h1, h2, h3⟩ := loadLoop_thrown _ _ _ _ h
  refine ⟨pre, line, rest, h1, h2, h3, fun e he => ?_⟩
  have hq := (peekOrdered_perm _).subset he
  have hst : s' = (loadLoop pre ⟨[], []⟩).state := by rw [h3]; rfl
  rw [hst] at hq
  rcases loadLoop_queue_origin pre ⟨[], []⟩ e hq with hh | hh
  · simp at hh
  · exact hh

theorem load_abort_leaves_partial_state_witness :
    scenario.loadFromFile (some "x|1|2|d\nlater\ny|3|4|\n".data)
      = LoadResult.thrown Exn.invalid_argument ⟨[⟨"x", 1, 2, "d"⟩], [("x", ⟨"x", 1, 2, "d"⟩)]⟩ ∧
    ((∃ pre line rest, getlines "x|1|2|d\nlater\ny|3|4|\n".data = pre ++ line :: rest ∧
      parseLine line = Except.error Exn.invalid_argument ∧
      loadLoop pre ⟨[], []⟩
        = LoadResult.loaded ⟨[⟨"x", 1, 2, "d"⟩], [("x", ⟨"x", 1, 2, "d"⟩)]⟩ ∧
      ∀ e ∈ (EventScheduler.mk [⟨"x", 1, 2, "d"⟩] [("x", ⟨"x", 1, 2, "d"⟩)]).peekOrdered,
        ∃ l ∈ pre, parseLine l = Except.ok e) ∧
    EventScheduler.empty.loadFromFile (some "x|1|2|d\nlater\ny|3|4|\n".data)
      = LoadResult.thrown Exn.invalid_argument ⟨[⟨"x", 1, 2, "d"⟩], [("x", ⟨"x", 1, 2, "d"⟩)]⟩ ∧
    scenario.loadFromFile none = LoadResult.openFailed scenario) :=
  ⟨by decide, load_abort_leaves_partial_state scenario _ _ _ (by decide)⟩

/-- C19, as stated, fails.  The scheduler of scenario 1 holds three events;
a load that throws on the first line of the file leaves it empty, and a load
that throws on the second line leaves it with the event of the first line
only. -/
theorem load_abort_loses_prior_state :
    scenario.peekOrdered.map Event.name = ["review", "standup", "lunch"] ∧
    scenario.loadFromFile (some "later\n".data)
      = LoadResult.thrown Exn.invalid_argument ⟨[], []⟩ ∧
    (scenario.loadFromFile (some "later\n".data)).state ≠ scenario ∧
    scenario.loadFromFile (some "x|1|2|d\nlater\n".data)
      = LoadResult.thrown Exn.invalid_argument ⟨[⟨"x", 1, 2, "d"⟩], [("x", ⟨"x", 1, 2, "d"⟩)]⟩ ∧
    (scenario.loadFromFile (some "x|1|2|d\nlater\n".data)).state ≠ scenario := by
  decide

end EventSchedular
